import Mathlib

/-!
# Verification of the aicodec-extension path-list tree reconstruction

A shallow embedding of the tree-view logic of the `aicodec-extension`
repository, together with proofs of the specification's testable
properties.

The embedding models:

* the JS string operations used by the code (`split`, `join`,
  `startsWith`, `substring`, `trim`, default `Array.sort`), as executable
  functions on `String.data : List Char`.  JS strings are modelled as
  sequences of Unicode code points; the host is modelled as a POSIX host,
  so `path.sep = '/'`;
* the child resolver of `AicodecTreeDataProvider.getChildren` (the loop
  over the cached flat path list building a first-wins name map, then
  sorting the keys);
* the JSON loaders `readAicodecJson` and `readRevertFiles`
  (`src/utils.ts`), with the file system and JSON parsing represented by
  small inductive types describing the outcome of the read;
* the revert (session-aware) branch of `getChildren`, including
  multi-session placeholder nodes, and `AicodecTreeItem`'s derived
  `contextValue`.
-/

set_option maxHeartbeats 1000000

namespace Aicodec

/-! ## JS string primitives -/

/-- Code-unit comparison of characters, as used by the default
`Array.prototype.sort()` comparator (for BMP characters code units and
code points agree). -/
def charLtB (a b : Char) : Bool := a.toNat < b.toNat

/-- Lexicographic strict comparison of character lists. -/
def strLtB : List Char → List Char → Bool
  | [], [] => false
  | [], _ :: _ => true
  | _ :: _, [] => false
  | a :: as, b :: bs =>
    if charLtB a b then true
    else if charLtB b a then false
    else strLtB as bs

/-- `a ≤ b` in the JS default sort order. -/
def strLeB (a b : String) : Bool := !(strLtB b.data a.data)

/-- The string order used in all sortedness statements:
lexicographic by code unit, as produced by `Array.prototype.sort()`. -/
def strLe (a b : String) : Prop := strLeB a b = true

instance : DecidableRel strLe := fun a b => inferInstanceAs (Decidable (strLeB a b = true))

/-- Splits a character list at every character satisfying `p`; models
`String.prototype.split` with a single-character-class separator
(such as `/[\\/]/` or `path.sep`).  The result is never empty; splitting
the empty string gives `[[]]`, as in JS. -/
def splitOnPred (p : Char → Bool) : List Char → List (List Char)
  | [] => [[]]
  | c :: cs =>
    if p c then [] :: splitOnPred p cs
    else
      match splitOnPred p cs with
      | [] => [[]]
      | r :: rs => (c :: r) :: rs

/-- Interleaves the character `c` between the pieces; models
`Array.prototype.join(c)`. -/
def joinWith (c : Char) : List (List Char) → List Char
  | [] => []
  | [x] => x
  | x :: y :: rest => x ++ c :: joinWith c (y :: rest)

/-- A path separator character, `\` or `/` (the regex class `[\\/]`). -/
def isSepChar (c : Char) : Bool := c == '\\' || c == '/'

/-- `fullRelativePath.split(/[\\/]/).join(path.sep)` with `path.sep = '/'`:
the separator normalization applied by `getChildren` to every path. -/
def normSep (s : String) : String := ⟨joinWith '/' (splitOnPred isSepChar s.data)⟩

/-- `pathAfterParent.split(path.sep)` on the POSIX host. -/
def splitSep (s : String) : List String := (splitOnPred (fun c => c == '/') s.data).map String.mk

/-- JS `String.prototype.startsWith`. -/
def jsStartsWith (pre s : String) : Bool := pre.data.isPrefixOf s.data

/-- JS `String.prototype.substring(n)` (from index `n` to the end). -/
def jsSubstringFrom (s : String) (n : Nat) : String := ⟨s.data.drop n⟩

/-- JS `String.prototype.endsWith`. -/
def jsEndsWith (suf s : String) : Bool := suf.data.isSuffixOf s.data

/-- ASCII whitespace, for the model of `String.prototype.trim`. -/
def isWsp (c : Char) : Bool := c == ' ' || c == '\t' || c == '\n' || c == '\r'

/-- JS `String.prototype.trim` (restricted to ASCII whitespace). -/
def jsTrim (s : String) : String :=
  ⟨(((s.data.dropWhile isWsp).reverse.dropWhile isWsp).reverse : List Char)⟩

/-- Insertion sort by the JS default comparator; the keys being sorted by
the provider are pairwise distinct, so any correct sort produces the same
list as `Array.prototype.sort()`. -/
def sortStrings (l : List String) : List String := List.insertionSort strLe l

/-! ## The core child resolver

`AicodecTreeDataProvider.getChildren`, non-revert case (`README.md`
lines 1009–1035 / 890–914): iterate over the cached flat list of
relative paths, keep the entries lying under the parent, take the first
remaining path segment as the child name, record first-wins
`{fullPath, isFile}` per name, and finally sort the names. -/

/-- The value stored per child name in the `children` map. -/
structure ChildInfo where
  fullPath : String
  isFile : Bool
deriving DecidableEq, Repr

/-- `path.join(workspaceRoot, parent, name)`, expressed relative to
`workspaceRoot` (the model carries workspace-relative paths where the
code carries absolute ones; `path.relative(workspaceRoot, ·)` is its
inverse for the simple relative paths involved). -/
def joinRel (parent name : String) : String :=
  if parent = "" then name else parent ++ "/" ++ name

/-- One iteration of the `for (const fullRelativePath of
this.relativeFilePaths!)` loop. -/
def childStep (parent : String) (m : List (String × ChildInfo)) (fullRelativePath : String) :
    List (String × ChildInfo) :=
  let normalizedPath := normSep fullRelativePath
  let normalizedParent := normSep parent
  if normalizedParent ≠ "" && !(jsStartsWith (normalizedParent ++ "/") normalizedPath) then m
  else
    let pathAfterParent :=
      if normalizedParent ≠ "" then jsSubstringFrom normalizedPath (normalizedParent.length + 1)
      else normalizedPath
    let segments := splitSep pathAfterParent
    let childName := segments.headD ""
    if childName ≠ "" && (List.lookup childName m).isNone then
      m ++ [(childName, ⟨joinRel parent childName, segments.length == 1⟩)]
    else m

/-- The insertion-ordered `children` map built by the loop. -/
def buildChildren (paths : List String) (parent : String) : List (String × ChildInfo) :=
  paths.foldl (childStep parent) []

/-- What the resolver hands to the presentation layer per child. -/
structure ChildEntry where
  name : String
  fullPath : String
  isFile : Bool
deriving DecidableEq, Repr

/-- The child resolver `children(P, E)`: the name map of `buildChildren`,
with its keys sorted, and `children.get(key)!` looked up per key. -/
def getChildrenCore (paths : List String) (parent : String) : List ChildEntry :=
  let children := buildChildren paths parent
  let sortedKeys := sortStrings (children.map Prod.fst)
  sortedKeys.map (fun key =>
    let child := (List.lookup key children).getD ⟨"", false⟩
    ⟨key, child.fullPath, child.isFile⟩)

/-- Replacing every backslash by a forward slash in an entry's path
(the transformation of the separator-independence property). -/
def slashify (p : String) : String :=
  ⟨p.data.map (fun c => if c = '\\' then '/' else c)⟩

example : getChildrenCore ["src/a.ts", "src/b/c.ts", "README.md"] "" =
    [⟨"README.md", "README.md", true⟩, ⟨"src", "src", false⟩] := by decide

example : getChildrenCore ["src/a.ts", "src/b/c.ts", "README.md"] "src" =
    [⟨"a.ts", "src/a.ts", true⟩, ⟨"b", "src/b", false⟩] := by decide

example : getChildrenCore ["src/a.ts", "src/b/c.ts", "README.md"] "src/b" =
    [⟨"c.ts", "src/b/c.ts", true⟩] := by decide

example : getChildrenCore ["a\\b\\c"] "a/b" = [⟨"c", "a/b/c", true⟩] := by decide

/-! ## Order lemmas for the JS sort comparator -/

theorem char_eq_of_toNat_eq {a b : Char} (h : a.toNat = b.toNat) : a = b :=
  Char.ext (UInt32.ext h)

theorem strLtB_asymm : ∀ {l₁ l₂ : List Char}, strLtB l₁ l₂ = true → strLtB l₂ l₁ = false
  | [], [], h => by simp [strLtB] at h
  | [], _ :: _, _ => rfl
  | _ :: _, [], h => by simp [strLtB] at h
  | a :: as, b :: bs, h => by
    simp only [strLtB, charLtB, decide_eq_true_eq] at h ⊢
    rcases Nat.lt_trichotomy a.toNat b.toNat with hab | hab | hab
    · rw [if_neg (by omega), if_pos (by omega)]
    · rw [if_neg (by omega), if_neg (by omega)]
      rw [if_neg (by omega), if_neg (by omega)] at h
      exact strLtB_asymm h
    · exfalso
      rw [if_neg (by omega), if_pos (by omega)] at h
      simp at h

theorem strLtB_trans : ∀ {l₁ l₂ l₃ : List Char},
    strLtB l₁ l₂ = true → strLtB l₂ l₃ = true → strLtB l₁ l₃ = true
  | [], [], _, h, _ => by simp [strLtB] at h
  | [], _ :: _, [], _, h => by simp [strLtB] at h
  | [], _ :: _, _ :: _, _, _ => rfl
  | _ :: _, [], _, h, _ => by simp [strLtB] at h
  | _ :: _, _ :: _, [], _, h => by simp [strLtB] at h
  | a :: as, b :: bs, c :: cs, h₁, h₂ => by
    simp only [strLtB, charLtB, decide_eq_true_eq] at h₁ h₂ ⊢
    rcases Nat.lt_trichotomy a.toNat b.toNat with hab | hab | hab <;>
      rcases Nat.lt_trichotomy b.toNat c.toNat with hbc | hbc | hbc
    all_goals first
      | (exfalso
         rw [if_neg (by omega), if_pos (by omega)] at h₂
         simp at h₂)
      | (exfalso
         rw [if_neg (by omega), if_pos (by omega)] at h₁
         simp at h₁)
      | rw [if_pos (by omega)]
      | (rw [if_neg (by omega), if_neg (by omega)] at h₁ h₂ ⊢
         exact strLtB_trans h₁ h₂)

theorem strLtB_connex : ∀ {l₁ l₂ : List Char},
    strLtB l₁ l₂ = false → strLtB l₂ l₁ = false → l₁ = l₂
  | [], [], _, _ => rfl
  | [], _ :: _, h, _ => by simp [strLtB] at h
  | _ :: _, [], _, h => by simp [strLtB] at h
  | a :: as, b :: bs, h₁, h₂ => by
    simp only [strLtB, charLtB, decide_eq_true_eq] at h₁ h₂
    rcases Nat.lt_trichotomy a.toNat b.toNat with hab | hab | hab
    · rw [if_pos (by omega)] at h₁
      simp at h₁
    · rw [if_neg (by omega), if_neg (by omega)] at h₁ h₂
      have hc : a = b := char_eq_of_toNat_eq hab
      subst hc
      exact congrArg (a :: ·) (strLtB_connex h₁ h₂)
    · rw [if_pos (by omega)] at h₂
      simp at h₂

instance : IsTotal String strLe := by
  constructor
  intro a b
  unfold strLe strLeB
  by_cases h : strLtB b.data a.data = true
  · right; simp [strLtB_asymm h]
  · left; revert h; cases strLtB b.data a.data <;> simp

instance : IsTrans String strLe := by
  constructor
  intro a b c hab hbc
  unfold strLe strLeB at hab hbc ⊢
  simp only [Bool.not_eq_true'] at hab hbc ⊢
  by_cases h : strLtB c.data a.data = true
  · exfalso
    by_cases h₂ : strLtB a.data b.data = true
    · have := strLtB_trans h h₂
      simp [this] at hbc
    · replace h₂ : strLtB a.data b.data = false := by revert h₂; cases strLtB a.data b.data <;> simp
      have hc : a.data = b.data := strLtB_connex h₂ hab
      rw [hc] at h
      simp [h] at hbc
  · revert h; cases strLtB c.data a.data <;> simp

instance : IsAntisymm String strLe := by
  constructor
  intro a b hab hba
  unfold strLe strLeB at hab hba
  simp only [Bool.not_eq_true'] at hab hba
  exact String.ext (strLtB_connex hba hab)

theorem sortStrings_sorted (l : List String) : List.Sorted strLe (sortStrings l) :=
  List.sorted_insertionSort strLe l

theorem sortStrings_perm (l : List String) : (sortStrings l).Perm l :=
  List.perm_insertionSort strLe l

/-! ## Association-list lemmas (the JS `Map` model) -/

theorem lookup_mem {β : Type} {m : List (String × β)} {k : String} {v : β}
    (h : List.lookup k m = some v) : (k, v) ∈ m := by
  induction m with
  | nil => simp [List.lookup] at h
  | cons e rest ih =>
    obtain ⟨e₁, e₂⟩ := e
    rw [List.lookup] at h
    split at h
    · rename_i heq
      simp only [Option.some.injEq] at h
      have h₁ : k = e₁ := by simpa using heq
      rw [h₁, ← h]
      exact List.mem_cons_self _ _
    · exact List.mem_cons.mpr (Or.inr (ih h))

theorem lookup_isSome_iff {β : Type} {m : List (String × β)} {k : String} :
    (List.lookup k m).isSome = true ↔ k ∈ m.map Prod.fst := by
  induction m with
  | nil => simp [List.lookup]
  | cons e rest ih =>
    rw [List.lookup]
    constructor
    · intro h
      split at h
      · rename_i heq
        simp only [List.map_cons, List.mem_cons]
        left
        simpa using heq
      · simp only [List.map_cons, List.mem_cons]
        right
        exact ih.mp h
    · intro h
      simp only [List.map_cons, List.mem_cons] at h
      split
      · simp
      · rename_i hne
        apply ih.mpr
        rcases h with h | h
        · simp [h] at hne
        · exact h

theorem lookup_eq_none_iff {β : Type} {m : List (String × β)} {k : String} :
    List.lookup k m = none ↔ k ∉ m.map Prod.fst := by
  rw [← lookup_isSome_iff]
  cases List.lookup k m <;> simp

theorem mem_lookup_of_nodup {β : Type} {m : List (String × β)} {k : String} {v : β}
    (hnd : (m.map Prod.fst).Nodup) (h : (k, v) ∈ m) : List.lookup k m = some v := by
  induction m with
  | nil => simp at h
  | cons e rest ih =>
    simp only [List.map_cons, List.nodup_cons] at hnd
    rcases List.mem_cons.mp h with h | h
    · rw [← h]
      simp [List.lookup]
    · rw [List.lookup]
      split
      · rename_i heq
        exfalso
        apply hnd.1
        have : k = e.1 := by simpa using heq
        rw [← this]
        exact List.mem_map.mpr ⟨(k, v), h, rfl⟩
      · exact ih hnd.2 h

theorem lookup_append_right {β : Type} {m : List (String × β)} {k k' : String} {v : β}
    (h : List.lookup k m = none) :
    List.lookup k (m ++ [(k', v)]) = if k = k' then some v else none := by
  induction m with
  | nil =>
    rw [List.nil_append, List.lookup]
    by_cases hk : k = k'
    · simp [hk]
    · rw [beq_eq_false_iff_ne.mpr hk, if_neg hk]
      exact h
  | cons e rest ih =>
    obtain ⟨e₁, e₂⟩ := e
    rw [List.lookup] at h
    rw [List.cons_append, List.lookup]
    split
    · rename_i heq
      rw [heq] at h
      simp at h
    · rename_i hne
      rw [hne] at h
      exact ih h

/-! ## Lemmas about the JS string primitives -/

theorem data_append (a b : String) : (a ++ b).data = a.data ++ b.data := rfl

theorem str_length (s : String) : s.length = s.data.length := rfl

/-- The character-level effect of separator normalization. -/
def normChar (c : Char) : Char := if isSepChar c then '/' else c

theorem splitOnPred_ne_nil (p : Char → Bool) : ∀ l, splitOnPred p l ≠ []
  | [] => by simp [splitOnPred]
  | c :: cs => by
    rw [splitOnPred]
    split
    · simp
    · rcases h : splitOnPred p cs with _ | ⟨r, rs⟩ <;> simp [h]

theorem splitOnPred_sep {p : Char → Bool} {c : Char} (cs : List Char) (h : p c = true) :
    splitOnPred p (c :: cs) = [] :: splitOnPred p cs := by
  rw [splitOnPred, if_pos h]

theorem splitOnPred_nonsep {p : Char → Bool} {c : Char} {cs r : List Char}
    {rs : List (List Char)} (h : p c = false) (hcs : splitOnPred p cs = r :: rs) :
    splitOnPred p (c :: cs) = (c :: r) :: rs := by
  rw [splitOnPred, if_neg (by simp [h]), hcs]

theorem joinWith_cons_piece (sep c : Char) (r : List Char) (rs : List (List Char)) :
    joinWith sep ((c :: r) :: rs) = c :: joinWith sep (r :: rs) := by
  cases rs <;> rfl

theorem joinWith_splitOnPred (sep : Char) (p : Char → Bool) :
    ∀ l : List Char, joinWith sep (splitOnPred p l) = l.map (fun c => if p c then sep else c)
  | [] => rfl
  | c :: cs => by
    by_cases h : p c = true
    · rw [splitOnPred_sep cs h]
      rcases hcs : splitOnPred p cs with _ | ⟨r, rs⟩
      · exact absurd hcs (splitOnPred_ne_nil p cs)
      · have : joinWith sep ([] :: r :: rs) = sep :: joinWith sep (r :: rs) := rfl
        rw [this, ← hcs, joinWith_splitOnPred sep p cs, List.map_cons, if_pos h]
    · replace h : p c = false := by revert h; cases p c <;> simp
      rcases hcs : splitOnPred p cs with _ | ⟨r, rs⟩
      · exact absurd hcs (splitOnPred_ne_nil p cs)
      · rw [splitOnPred_nonsep h hcs, joinWith_cons_piece, ← hcs,
          joinWith_splitOnPred sep p cs, List.map_cons, if_neg (by simp [h])]

theorem normSep_data (s : String) : (normSep s).data = s.data.map normChar := by
  show joinWith '/' (splitOnPred isSepChar s.data) = _
  rw [joinWith_splitOnPred]
  rfl

theorem normSep_idem (s : String) : normSep (normSep s) = normSep s := by
  apply String.ext
  rw [normSep_data, normSep_data, List.map_map]
  apply List.map_congr_left
  intro c _
  show normChar (normChar c) = normChar c
  unfold normChar isSepChar
  by_cases h : (c == '\\' || c == '/') = true <;> simp [h]

theorem normSep_slashify (p : String) : normSep (slashify p) = normSep p := by
  apply String.ext
  rw [normSep_data, normSep_data]
  show (p.data.map _).map normChar = _
  rw [List.map_map]
  apply List.map_congr_left
  intro c _
  show normChar (if c = '\\' then '/' else c) = normChar c
  by_cases h : c = '\\'
  · rw [if_pos h, h]
    unfold normChar isSepChar
    simp
  · rw [if_neg h]

theorem splitOnPred_eq_singleton {p : Char → Bool} :
    ∀ {l x : List Char}, splitOnPred p l = [x] → l = x ∧ ∀ c ∈ x, p c = false := by
  intro l
  induction l with
  | nil =>
    intro x h
    simp [splitOnPred] at h
    subst h
    exact ⟨rfl, by intro c hc; simp at hc⟩
  | cons c cs ih =>
    intro x h
    by_cases hc : p c = true
    · rw [splitOnPred_sep cs hc] at h
      simp only [List.cons.injEq] at h
      exact absurd h.2 (splitOnPred_ne_nil p cs)
    · replace hc : p c = false := by revert hc; cases p c <;> simp
      rcases hcs : splitOnPred p cs with _ | ⟨r, rs⟩
      · exact absurd hcs (splitOnPred_ne_nil p cs)
      · rw [splitOnPred_nonsep hc hcs] at h
        simp only [List.cons.injEq] at h
        obtain ⟨hx, hrs⟩ := h
        subst hrs
        obtain ⟨hcsr, hfree⟩ := ih hcs
        subst hcsr
        constructor
        · rw [← hx]
        · intro d hd
          rw [← hx] at hd
          rcases List.mem_cons.mp hd with hd | hd
          · rw [hd]; exact hc
          · exact hfree d hd

theorem splitOnPred_of_no_sep {p : Char → Bool} :
    ∀ {l : List Char}, (∀ c ∈ l, p c = false) → splitOnPred p l = [l] := by
  intro l
  induction l with
  | nil => intro _; rfl
  | cons c cs ih =>
    intro h
    have hc : p c = false := h c (List.mem_cons_self _ _)
    have hcs := ih (fun d hd => h d (List.mem_cons.mpr (Or.inr hd)))
    rw [splitOnPred_nonsep hc hcs]

theorem splitSep_eq_singleton {s x : String} (h : splitSep s = [x]) :
    s = x ∧ ∀ c ∈ x.data, (c == '/') = false := by
  unfold splitSep at h
  rcases hsp : splitOnPred (fun c => c == '/') s.data with _ | ⟨r, rs⟩
  · exact absurd hsp (splitOnPred_ne_nil _ _)
  · rw [hsp] at h
    simp only [List.map_cons, List.cons.injEq] at h
    obtain ⟨hr, hrs⟩ := h
    have hrsnil : rs = [] := by
      cases rs
      · rfl
      · simp at hrs
    subst hrsnil
    obtain ⟨hsr, hfree⟩ := splitOnPred_eq_singleton hsp
    have hxd : x.data = r := by rw [← hr]
    refine ⟨String.ext (by rw [hsr, hxd]), ?_⟩
    intro c hc
    rw [hxd] at hc
    exact hfree c hc

theorem jsStartsWith_decomp {pre s : String} (h : jsStartsWith pre s = true) :
    s = pre ++ jsSubstringFrom s pre.length := by
  unfold jsStartsWith at h
  have hp : pre.data <+: s.data := List.isPrefixOf_iff_prefix.mp h
  obtain ⟨t, ht⟩ := hp
  apply String.ext
  rw [data_append]
  show s.data = pre.data ++ s.data.drop pre.length
  rw [str_length, ← ht, List.drop_left]

/-! ## Characterization of the resolver loop -/

/-- The `segments` computed by one loop iteration for entry `p`. -/
def childSegsOf (parent p : String) : List String :=
  splitSep (if normSep parent ≠ "" then
    jsSubstringFrom (normSep p) ((normSep parent).length + 1)
  else normSep p)

/-- The `childName` computed by one loop iteration for entry `p`. -/
def childNameOf (parent p : String) : String := (childSegsOf parent p).headD ""

theorem childStep_eq (parent : String) (m : List (String × ChildInfo)) (p : String) :
    childStep parent m p =
      if normSep parent ≠ "" && !(jsStartsWith (normSep parent ++ "/") (normSep p)) then m
      else if childNameOf parent p ≠ "" && (List.lookup (childNameOf parent p) m).isNone then
        m ++ [(childNameOf parent p,
          ⟨joinRel parent (childNameOf parent p), (childSegsOf parent p).length == 1⟩)]
      else m := rfl

theorem mem_childStep {parent p : String} {m : List (String × ChildInfo)}
    {n : String} {info : ChildInfo} (h : (n, info) ∈ childStep parent m p) :
    (n, info) ∈ m ∨
      ((List.lookup n m).isNone ∧ n = childNameOf parent p ∧
        (normSep parent ≠ "" && !(jsStartsWith (normSep parent ++ "/") (normSep p))) = false ∧
        n ≠ "" ∧
        info = ⟨joinRel parent n, (childSegsOf parent p).length == 1⟩) := by
  rw [childStep_eq] at h
  split at h
  · exact Or.inl h
  · rename_i hguard
    split at h
    · rename_i hins
      rcases List.mem_append.mp h with h | h
      · exact Or.inl h
      · simp only [List.mem_singleton, Prod.mk.injEq] at h
        obtain ⟨hn, hinfo⟩ := h
        simp only [Bool.and_eq_true, decide_eq_true_eq, Option.isNone_iff_eq_none] at hins
        refine Or.inr ⟨?_, hn, ?_, ?_, ?_⟩
        · rw [hn]
          simp [hins.2]
        · revert hguard
          cases hb : (normSep parent ≠ "" && !(jsStartsWith (normSep parent ++ "/") (normSep p)) :
            Bool) <;> simp
        · rw [hn]; exact hins.1
        · rw [hn]; exact hinfo
    · exact Or.inl h

theorem length_append_slash (a : String) : (a ++ "/").length = a.length + 1 := by
  rw [str_length, data_append, List.length_append, str_length]
  rfl

/-- A leaf inserted by the loop comes from an entry whose normalized path
is exactly `normalizedParent / childName`. -/
theorem leaf_insert_spec {parent p : String}
    (hguard : (normSep parent ≠ "" && !(jsStartsWith (normSep parent ++ "/") (normSep p))) = false)
    (hflag : ((childSegsOf parent p).length == 1) = true) :
    normSep p = joinRel (normSep parent) (childNameOf parent p) := by
  obtain ⟨x, hx⟩ := List.length_eq_one.mp (by simpa using hflag)
  have hname : childNameOf parent p = x := by
    unfold childNameOf
    rw [hx]
    rfl
  rw [hname]
  by_cases hpar : normSep parent = ""
  · have hpap : childSegsOf parent p = splitSep (normSep p) := by
      unfold childSegsOf
      rw [if_neg (by simp [hpar])]
    rw [hpap] at hx
    obtain ⟨hpx, _⟩ := splitSep_eq_singleton hx
    rw [joinRel, if_pos hpar, hpx]
  · have hsw : jsStartsWith (normSep parent ++ "/") (normSep p) = true := by
      revert hguard
      cases hb : jsStartsWith (normSep parent ++ "/") (normSep p) <;> simp [hpar]
    have hpap : childSegsOf parent p =
        splitSep (jsSubstringFrom (normSep p) ((normSep parent).length + 1)) := by
      unfold childSegsOf
      rw [if_pos (by simp [hpar])]
    rw [hpap] at hx
    obtain ⟨hpx, _⟩ := splitSep_eq_singleton hx
    have hdec := jsStartsWith_decomp hsw
    rw [length_append_slash] at hdec
    rw [joinRel, if_neg hpar]
    rw [hdec, hpx]

theorem keys_childStep_nodup {parent p : String} {m : List (String × ChildInfo)}
    (h : (m.map Prod.fst).Nodup) : ((childStep parent m p).map Prod.fst).Nodup := by
  rw [childStep_eq]
  split
  · exact h
  · split
    · rename_i hins
      simp only [Bool.and_eq_true, decide_eq_true_eq, Option.isNone_iff_eq_none] at hins
      rw [List.map_append]
      apply List.Nodup.append h (by simp)
      intro a ha hb
      simp only [List.map_cons, List.map_nil, List.mem_singleton] at hb
      rw [hb] at ha
      exact (lookup_eq_none_iff.mp hins.2) ha
    · exact h

theorem keys_foldl_nodup (parent : String) :
    ∀ (l : List String) (m : List (String × ChildInfo)),
      (m.map Prod.fst).Nodup → ((l.foldl (childStep parent) m).map Prod.fst).Nodup := by
  intro l
  induction l with
  | nil => intro m h; exact h
  | cons p rest ih =>
    intro m h
    exact ih (childStep parent m p) (keys_childStep_nodup h)

theorem buildChildren_keys_nodup (paths : List String) (parent : String) :
    ((buildChildren paths parent).map Prod.fst).Nodup :=
  keys_foldl_nodup parent paths [] (by simp)

theorem leafwit_foldl (paths₀ : List String) (parent : String) :
    ∀ (l : List String) (m : List (String × ChildInfo)),
      (∀ x ∈ l, x ∈ paths₀) →
      (∀ n info, (n, info) ∈ m → info.isFile = true →
        ∃ p ∈ paths₀, normSep p = joinRel (normSep parent) n) →
      ∀ n info, (n, info) ∈ l.foldl (childStep parent) m → info.isFile = true →
        ∃ p ∈ paths₀, normSep p = joinRel (normSep parent) n := by
  intro l
  induction l with
  | nil => intro m _ hm n info h hf; exact hm n info h hf
  | cons p rest ih =>
    intro m hl hm n info h hf
    refine ih (childStep parent m p) (fun x hx => hl x (List.mem_cons.mpr (Or.inr hx))) ?_ n info h hf
    intro n' info' h' hf'
    rcases mem_childStep h' with h' | ⟨_, hn', hguard, hne', hinfo'⟩
    · exact hm n' info' h' hf'
    · refine ⟨p, hl p (List.mem_cons_self _ _), ?_⟩
      rw [hinfo'] at hf'
      rw [hn']
      exact leaf_insert_spec hguard hf'

theorem buildChildren_leaf (paths : List String) (parent : String) :
    ∀ n info, (n, info) ∈ buildChildren paths parent → info.isFile = true →
      ∃ p ∈ paths, normSep p = joinRel (normSep parent) n :=
  leafwit_foldl paths parent paths [] (fun _ hx => hx) (by intro n info h; simp at h)

theorem getChildrenCore_eq (paths : List String) (parent : String) :
    getChildrenCore paths parent =
      (sortStrings ((buildChildren paths parent).map Prod.fst)).map (fun key =>
        ⟨key, ((List.lookup key (buildChildren paths parent)).getD ⟨"", false⟩).fullPath,
          ((List.lookup key (buildChildren paths parent)).getD ⟨"", false⟩).isFile⟩) := rfl

/-- C1: for every entry set `E` and every prefix `P`, the child resolver
`children(P, E)` returns a list with no duplicate names, sorted ascending
by name in the JS sort order, and every returned leaf corresponds to at
least one entry of `E` whose separator-normalized path equals `P/name`
(with the prefix itself separator-normalized). -/
theorem C1_children_nodup_sorted_leaf (paths : List String) (parent : String) :
    List.Sorted strLe ((getChildrenCore paths parent).map ChildEntry.name) ∧
    ((getChildrenCore paths parent).map ChildEntry.name).Nodup ∧
    (∀ c ∈ getChildrenCore paths parent, c.isFile = true →
      ∃ p ∈ paths, normSep p = joinRel (normSep parent) c.name) := by
  have hnames : (getChildrenCore paths parent).map ChildEntry.name =
      sortStrings ((buildChildren paths parent).map Prod.fst) := by
    rw [getChildrenCore_eq, List.map_map]
    exact List.map_id' _
  refine ⟨?_, ?_, ?_⟩
  · rw [hnames]
    exact sortStrings_sorted _
  · rw [hnames]
    exact ((sortStrings_perm _).nodup_iff).mpr (buildChildren_keys_nodup paths parent)
  · intro c hc hf
    rw [getChildrenCore_eq] at hc
    obtain ⟨k, hk, hck⟩ := List.mem_map.mp hc
    have hkmem : k ∈ (buildChildren paths parent).map Prod.fst :=
      ((sortStrings_perm _).mem_iff).mp hk
    obtain ⟨info, hinfo⟩ := Option.isSome_iff_exists.mp (lookup_isSome_iff.mpr hkmem)
    have hcn : c.name = k := by rw [← hck]
    have hcf : c.isFile = info.isFile := by rw [← hck]; simp [hinfo]
    rw [hcn]
    exact buildChildren_leaf paths parent k info (lookup_mem hinfo) (by rw [← hcf]; exact hf)

/-- Witness for C1 at the concrete entry set `["a/b.txt", "x"]` and the
root prefix: the leaf `x` is certified by an entry with that normalized
path. -/
theorem C1_witness :
    List.Sorted strLe ((getChildrenCore ["a/b.txt", "x"] "").map ChildEntry.name) ∧
    ((getChildrenCore ["a/b.txt", "x"] "").map ChildEntry.name).Nodup ∧
    (∃ p ∈ ["a/b.txt", "x"], normSep p = joinRel (normSep "") "x") := by
  obtain ⟨h1, h2, h3⟩ := C1_children_nodup_sorted_leaf ["a/b.txt", "x"] ""
  exact ⟨h1, h2, h3 ⟨"x", "x", true⟩ (by decide) rfl⟩

theorem childSegsOf_slashify (parent p : String) :
    childSegsOf parent (slashify p) = childSegsOf parent p := by
  unfold childSegsOf
  rw [normSep_slashify]

theorem childNameOf_slashify (parent p : String) :
    childNameOf parent (slashify p) = childNameOf parent p := by
  unfold childNameOf
  rw [childSegsOf_slashify]

theorem childStep_slashify (parent : String) (m : List (String × ChildInfo)) (p : String) :
    childStep parent m (slashify p) = childStep parent m p := by
  rw [childStep_eq, childStep_eq, normSep_slashify, childNameOf_slashify, childSegsOf_slashify]

/-- C4: for every prefix, an entry set and the entry set obtained by
replacing every backslash with a forward slash produce identical
`children` results on the same host; path comparison is
separator-normalized throughout. -/
theorem C4_separator_independence (paths : List String) (parent : String) :
    getChildrenCore (paths.map slashify) parent = getChildrenCore paths parent := by
  have hb : buildChildren (paths.map slashify) parent = buildChildren paths parent := by
    unfold buildChildren
    rw [List.foldl_map]
    apply List.foldl_ext
    intro m p _
    exact childStep_slashify parent m p
  rw [getChildrenCore_eq, getChildrenCore_eq, hb]

/-! ## Segment-level view of paths, for the round-trip property -/

/-- The segments of an entry's separator-normalized path. -/
def segs (p : String) : List String := splitSep (normSep p)

/-- A list of well-formed path segments: nonempty and separator-free. -/
def SegsOK (S : List String) : Prop :=
  ∀ s ∈ S, s ≠ "" ∧ ∀ c ∈ s.data, isSepChar c = false

/-- An entry path is well formed when its normalized form has no empty
segments (no leading, trailing or doubled separator). -/
def wfPath (p : String) : Prop := ∀ s ∈ segs p, s ≠ ""

/-- No entry's segment list is a strict prefix of another's (no path is
simultaneously a file and a directory). -/
def prefixFree (paths : List String) : Prop :=
  ∀ p ∈ paths, ∀ q ∈ paths, (segs p).isPrefixOf (segs q) = true → segs p = segs q

/-- An upper bound on the number of segments of any entry. -/
def maxDepth (paths : List String) : Nat :=
  (paths.map (fun p => (segs p).length)).foldr max 0

/-- Joining segments back with the host separator (`joinSegs [] = ""`,
the root prefix). -/
def joinSegs : List String → String
  | [] => ""
  | [s] => s
  | s :: t :: rest => s ++ "/" ++ joinSegs (t :: rest)

/-- The spec's round-trip reconstruction: recursively call `children`
from the given prefix and concatenate `prefix/name` for every returned
leaf.  `fuel` bounds the recursion depth; any value at least
`maxDepth paths` is enough. -/
def collectLeaves (paths : List String) : String → Nat → List String
  | _, 0 => []
  | parent, fuel + 1 =>
    (getChildrenCore paths parent).flatMap (fun c =>
      if c.isFile then [joinRel parent c.name]
      else collectLeaves paths (joinRel parent c.name) fuel)

instance (S : List String) : Decidable (SegsOK S) := by
  unfold SegsOK
  infer_instance

instance (p : String) : Decidable (wfPath p) := by
  unfold wfPath
  infer_instance

instance (paths : List String) : Decidable (prefixFree paths) := by
  unfold prefixFree
  infer_instance

theorem segs_ne_nil (p : String) : segs p ≠ [] := by
  unfold segs splitSep
  intro h
  exact splitOnPred_ne_nil _ _ (List.map_eq_nil_iff.mp h)

theorem splitOnPred_piece_free {q : Char → Bool} :
    ∀ {l : List Char}, ∀ r ∈ splitOnPred q l, ∀ c ∈ r, q c = false := by
  intro l
  induction l with
  | nil =>
    intro r hr c hc
    simp [splitOnPred] at hr
    rw [hr] at hc
    simp at hc
  | cons a as ih =>
    intro r hr c hc
    by_cases ha : q a = true
    · rw [splitOnPred_sep as ha] at hr
      rcases List.mem_cons.mp hr with hr | hr
      · rw [hr] at hc; simp at hc
      · exact ih r hr c hc
    · replace ha : q a = false := by revert ha; cases q a <;> simp
      rcases has : splitOnPred q as with _ | ⟨r', rs'⟩
      · exact absurd has (splitOnPred_ne_nil q as)
      · rw [splitOnPred_nonsep ha has] at hr
        rcases List.mem_cons.mp hr with hr | hr
        · rw [hr] at hc
          rcases List.mem_cons.mp hc with hc | hc
          · rw [hc]; exact ha
          · exact ih r' (has ▸ List.mem_cons_self _ _) c hc
        · exact ih r (has ▸ List.mem_cons.mpr (Or.inr hr)) c hc

theorem splitOnPred_piece_chars {q : Char → Bool} :
    ∀ {l : List Char}, ∀ r ∈ splitOnPred q l, ∀ c ∈ r, c ∈ l := by
  intro l
  induction l with
  | nil =>
    intro r hr c hc
    simp [splitOnPred] at hr
    rw [hr] at hc
    simp at hc
  | cons a as ih =>
    intro r hr c hc
    by_cases ha : q a = true
    · rw [splitOnPred_sep as ha] at hr
      rcases List.mem_cons.mp hr with hr | hr
      · rw [hr] at hc; simp at hc
      · exact List.mem_cons.mpr (Or.inr (ih r hr c hc))
    · replace ha : q a = false := by revert ha; cases q a <;> simp
      rcases has : splitOnPred q as with _ | ⟨r', rs'⟩
      · exact absurd has (splitOnPred_ne_nil q as)
      · rw [splitOnPred_nonsep ha has] at hr
        rcases List.mem_cons.mp hr with hr | hr
        · rw [hr] at hc
          rcases List.mem_cons.mp hc with hc | hc
          · exact List.mem_cons.mpr (Or.inl hc)
          · exact List.mem_cons.mpr
              (Or.inr (ih r' (has ▸ List.mem_cons_self _ _) c hc))
        · exact List.mem_cons.mpr (Or.inr (ih r (has ▸ List.mem_cons.mpr (Or.inr hr)) c hc))

theorem normSep_char_not_backslash {p : String} {c : Char} (hc : c ∈ (normSep p).data) :
    (c == '\\') = false := by
  rw [normSep_data] at hc
  obtain ⟨d, _, hd⟩ := List.mem_map.mp hc
  rw [← hd]
  unfold normChar
  by_cases h : isSepChar d = true
  · rw [if_pos h]
    decide
  · rw [if_neg (by simp [h])]
    have h' : isSepChar d = false := by revert h; cases isSepChar d <;> simp
    unfold isSepChar at h'
    exact (Bool.or_eq_false_iff.mp h').1

theorem segs_sepFree (p : String) : ∀ s ∈ segs p, ∀ c ∈ s.data, isSepChar c = false := by
  intro s hs c hc
  unfold segs splitSep at hs
  obtain ⟨r, hr, hmk⟩ := List.mem_map.mp hs
  rw [← hmk] at hc
  have hslash : (c == '/') = false := splitOnPred_piece_free r hr c hc
  have hmem : c ∈ (normSep p).data := splitOnPred_piece_chars r hr c hc
  have hback : (c == '\\') = false := normSep_char_not_backslash hmem
  unfold isSepChar
  rw [hback, hslash]
  rfl

theorem wf_segsOK {p : String} (h : wfPath p) : SegsOK (segs p) :=
  fun s hs => ⟨h s hs, segs_sepFree p s hs⟩

/-! ## Joining and splitting segment lists -/

theorem str_append_assoc (a b c : String) : (a ++ b) ++ c = a ++ (b ++ c) :=
  String.ext (by rw [data_append, data_append, data_append, data_append, List.append_assoc])

theorem normChar_slash : normChar '/' = '/' := by decide

theorem normChar_of_sepFree {c : Char} (h : isSepChar c = false) : normChar c = c := by
  unfold normChar
  rw [if_neg (by simp [h])]

theorem normSep_joinSegs : ∀ {D : List String}, SegsOK D → normSep (joinSegs D) = joinSegs D
  | [], _ => rfl
  | [s], hD => by
    apply String.ext
    rw [normSep_data]
    show s.data.map normChar = s.data
    have : ∀ c ∈ s.data, normChar c = c :=
      fun c hc => normChar_of_sepFree ((hD s (List.mem_cons_self _ _)).2 c hc)
    rw [List.map_congr_left this, List.map_id']
  | s :: t :: rest, hD => by
    have ih := normSep_joinSegs (D := t :: rest)
      (fun x hx => hD x (List.mem_cons.mpr (Or.inr hx)))
    apply String.ext
    rw [normSep_data]
    show ((s ++ "/") ++ joinSegs (t :: rest)).data.map normChar =
      ((s ++ "/") ++ joinSegs (t :: rest)).data
    rw [data_append, data_append]
    have hsd : "/".data = ['/'] := rfl
    rw [hsd, List.append_assoc, List.singleton_append, List.map_append, List.map_cons]
    have h₁ : s.data.map normChar = s.data := by
      have : ∀ c ∈ s.data, normChar c = c :=
        fun c hc => normChar_of_sepFree ((hD s (List.mem_cons_self _ _)).2 c hc)
      rw [List.map_congr_left this, List.map_id']
    have h₂ : (joinSegs (t :: rest)).data.map normChar = (joinSegs (t :: rest)).data := by
      have := congrArg String.data ih
      rw [normSep_data] at this
      exact this
    rw [h₁, h₂, normChar_slash]

theorem joinSegs_map_mk :
    ∀ L : List (List Char), (joinSegs (L.map String.mk)).data = joinWith '/' L
  | [] => rfl
  | [x] => rfl
  | x :: y :: rest => by
    show ((String.mk x ++ "/") ++ joinSegs (String.mk y :: rest.map String.mk)).data = _
    rw [data_append, data_append]
    have : joinSegs (String.mk y :: rest.map String.mk) =
        joinSegs ((y :: rest).map String.mk) := rfl
    rw [this, joinSegs_map_mk (y :: rest)]
    show x ++ ['/'] ++ joinWith '/' (y :: rest) = x ++ '/' :: joinWith '/' (y :: rest)
    rw [List.append_assoc, List.singleton_append]

theorem joinSegs_segs (p : String) : joinSegs (segs p) = normSep p := by
  apply String.ext
  unfold segs splitSep
  rw [joinSegs_map_mk, joinWith_splitOnPred]
  have : ∀ c ∈ (normSep p).data, (if (c == '/') = true then '/' else c) = c := by
    intro c _
    by_cases h : (c == '/') = true
    · rw [if_pos h]
      have : c = '/' := by simpa using h
      rw [this]
    · rw [if_neg h]
  rw [List.map_congr_left this, List.map_id']

theorem splitOnPred_free_append {q : Char → Bool} :
    ∀ {a : List Char} {r : List Char} {h : List Char} {t : List (List Char)},
      (∀ c ∈ a, q c = false) → splitOnPred q r = h :: t →
      splitOnPred q (a ++ r) = (a ++ h) :: t := by
  intro a
  induction a with
  | nil =>
    intro r h t _ hr
    rw [List.nil_append, hr, List.nil_append]
  | cons c a' ih =>
    intro r h t ha hr
    have hc : q c = false := ha c (List.mem_cons_self _ _)
    have ha' : ∀ d ∈ a', q d = false := fun d hd => ha d (List.mem_cons.mpr (Or.inr hd))
    rw [List.cons_append, splitOnPred_nonsep hc (ih ha' hr), List.cons_append]

theorem splitSep_sep_append (s t : String) (hfree : ∀ c ∈ s.data, (c == '/') = false) :
    splitSep ((s ++ "/") ++ t) = s :: splitSep t := by
  unfold splitSep
  have hdata : ((s ++ "/") ++ t).data = s.data ++ ('/' :: t.data) := by
    rw [data_append, data_append]
    show s.data ++ ['/'] ++ t.data = _
    rw [List.append_assoc, List.singleton_append]
  rw [hdata]
  rcases ht : splitOnPred (fun c => c == '/') t.data with _ | ⟨h, tl⟩
  · exact absurd ht (splitOnPred_ne_nil _ _)
  · have hsep : splitOnPred (fun c => c == '/') ('/' :: t.data) =
        [] :: h :: tl := by
      rw [splitOnPred_sep t.data (by simp), ht]
    rw [splitOnPred_free_append hfree hsep, List.append_nil, List.map_cons, ← ht]

theorem splitSep_of_sepFree {s : String} (hfree : ∀ c ∈ s.data, (c == '/') = false) :
    splitSep s = [s] := by
  unfold splitSep
  rw [splitOnPred_of_no_sep hfree]
  rfl

theorem splitSep_joinSegs : ∀ {S : List String}, SegsOK S → S ≠ [] →
    splitSep (joinSegs S) = S
  | [], _, hne => absurd rfl hne
  | [s], hS, _ => by
    have hfree : ∀ c ∈ s.data, (c == '/') = false := by
      intro c hc
      have := (hS s (List.mem_cons_self _ _)).2 c hc
      unfold isSepChar at this
      exact (Bool.or_eq_false_iff.mp this).2
    exact splitSep_of_sepFree hfree
  | s :: t :: rest, hS, _ => by
    have hfree : ∀ c ∈ s.data, (c == '/') = false := by
      intro c hc
      have := (hS s (List.mem_cons_self _ _)).2 c hc
      unfold isSepChar at this
      exact (Bool.or_eq_false_iff.mp this).2
    have ih := splitSep_joinSegs (S := t :: rest)
      (fun x hx => hS x (List.mem_cons.mpr (Or.inr hx))) (by simp)
    show splitSep ((s ++ "/") ++ joinSegs (t :: rest)) = _
    rw [splitSep_sep_append s _ hfree, ih]

theorem joinSegs_ne_empty : ∀ {D : List String}, SegsOK D → D ≠ [] → joinSegs D ≠ ""
  | [], _, hne => absurd rfl hne
  | [s], hD, _ => (hD s (List.mem_cons_self _ _)).1
  | s :: t :: rest, _, _ => by
    intro h
    have h1 : (s ++ "/") ++ joinSegs (t :: rest) = "" := h
    have h2 := congrArg String.data h1
    rw [data_append] at h2
    rcases List.append_eq_nil.mp h2 with ⟨h3, _⟩
    rw [data_append] at h3
    rcases List.append_eq_nil.mp h3 with ⟨_, h4⟩
    simp at h4

theorem joinSegs_snoc : ∀ {D : List String}, SegsOK D → ∀ n : String,
    joinSegs (D ++ [n]) = joinRel (joinSegs D) n
  | [], _, n => by
    rw [List.nil_append]
    show joinSegs [n] = joinRel "" n
    rw [joinRel, if_pos rfl]
    rfl
  | [d], hD, n => by
    show (d ++ "/") ++ joinSegs [n] = joinRel d n
    rw [joinRel, if_neg (hD d (List.mem_cons_self _ _)).1]
    rfl
  | d :: t :: rest, hD, n => by
    have htail : SegsOK (t :: rest) := fun x hx => hD x (List.mem_cons.mpr (Or.inr hx))
    have ih := joinSegs_snoc htail n
    have hJ : joinSegs (t :: rest) ≠ "" := joinSegs_ne_empty htail (by simp)
    have hDJ : (d ++ "/") ++ joinSegs (t :: rest) ≠ "" := joinSegs_ne_empty hD (by simp)
    show (d ++ "/") ++ joinSegs ((t :: rest) ++ [n]) =
      joinRel ((d ++ "/") ++ joinSegs (t :: rest)) n
    rw [ih]
    unfold joinRel
    rw [if_neg hJ, if_neg hDJ]
    apply String.ext
    simp [data_append, List.append_assoc]

theorem joinSegs_decomp : ∀ {D S : List String}, D ≠ [] → D <+: S → D ≠ S →
    joinSegs S = (joinSegs D ++ "/") ++ joinSegs (S.drop D.length)
  | [], _, hne, _, _ => absurd rfl hne
  | [d], S, _, hp, hneq => by
    cases S with
    | nil => exact absurd (List.prefix_nil.mp hp) (by simp)
    | cons s S' =>
      obtain ⟨hds, _⟩ := List.cons_prefix_cons.mp hp
      subst hds
      cases S' with
      | nil => exact absurd rfl hneq
      | cons t rest =>
        show (d ++ "/") ++ joinSegs (t :: rest) = _
        rfl
  | d :: d' :: D', S, _, hp, hneq => by
    cases S with
    | nil => exact absurd (List.prefix_nil.mp hp) (by simp)
    | cons s S' =>
      obtain ⟨hds, hp'⟩ := List.cons_prefix_cons.mp hp
      subst hds
      have hneq' : d' :: D' ≠ S' := by
        intro h
        exact hneq (by rw [h])
      have ih := joinSegs_decomp (D := d' :: D') (S := S') (by simp) hp' hneq'
      have hS' : S' ≠ [] := by
        intro h
        rw [h] at hp'
        exact (by simp : d' :: D' ≠ ([] : List String)) (List.prefix_nil.mp hp')
      obtain ⟨t, rest, hS⟩ : ∃ t rest, S' = t :: rest := by
        cases S' with
        | nil => exact absurd rfl hS'
        | cons t rest => exact ⟨t, rest, rfl⟩
      subst hS
      show (d ++ "/") ++ joinSegs (t :: rest) = _
      rw [ih]
      show _ = (((d ++ "/") ++ joinSegs (d' :: D') ++ "/") ++
        joinSegs ((t :: rest).drop (d' :: D').length))
      rw [str_append_assoc (d ++ "/") (joinSegs (d' :: D')) "/",
        str_append_assoc (d ++ "/") _ _]

/-! ## Prefix characterization of `startsWith` on joined segments -/

theorem headD_drop {α : Type} (l : List α) (n : Nat) (d : α) :
    (l.drop n).headD d = l.getD n d := by
  rw [List.headD_eq_head?, List.head?_drop, List.getD_eq_getElem?_getD]

theorem takeWhile_append_stop {q : Char → Bool} :
    ∀ {a : List Char} {x : Char} {r : List Char},
      (∀ c ∈ a, q c = true) → q x = false → (a ++ x :: r).takeWhile q = a := by
  intro a
  induction a with
  | nil =>
    intro x r _ hx
    rw [List.nil_append]
    exact List.takeWhile_cons_of_neg (by simp [hx])
  | cons c a' ih =>
    intro x r ha hx
    rw [List.cons_append, List.takeWhile_cons_of_pos (ha c (List.mem_cons_self _ _)),
      ih (fun d hd => ha d (List.mem_cons.mpr (Or.inr hd))) hx]

theorem prefix_sep_split {a b r₁ r₂ : List Char}
    (hfa : ∀ c ∈ a, (c == '/') = false) (hfb : ∀ c ∈ b, (c == '/') = false)
    (h : (a ++ '/' :: r₁) <+: (b ++ '/' :: r₂)) : a = b ∧ r₁ <+: r₂ := by
  obtain ⟨t, ht⟩ := h
  have hta : ((a ++ '/' :: r₁) ++ t).takeWhile (fun c => !(c == '/')) = a := by
    rw [List.append_assoc, List.cons_append]
    exact takeWhile_append_stop (fun c hc => by simp [hfa c hc]) (by simp)
  have htb : (b ++ '/' :: r₂).takeWhile (fun c => !(c == '/')) = b :=
    takeWhile_append_stop (fun c hc => by simp [hfb c hc]) (by simp)
  rw [ht] at hta
  have hab : a = b := hta.symm.trans htb
  subst hab
  rw [List.append_assoc, List.cons_append] at ht
  have := List.append_cancel_left ht
  have h2 := List.cons.injEq '/' (r₁ ++ t) '/' r₂ ▸ this
  refine ⟨rfl, ⟨t, ?_⟩⟩
  have h3 : r₁ ++ t = r₂ := by
    have := List.cons.inj this
    exact this.2
  exact h3

theorem sepFree_of_segsOK {S : List String} (hS : SegsOK S) {s : String} (hs : s ∈ S) :
    ∀ c ∈ s.data, (c == '/') = false := by
  intro c hc
  have := (hS s hs).2 c hc
  unfold isSepChar at this
  exact (Bool.or_eq_false_iff.mp this).2

theorem data_slash_append (s t : String) :
    ((s ++ "/") ++ t).data = s.data ++ '/' :: t.data := by
  rw [data_append, data_append]
  show s.data ++ ['/'] ++ t.data = _
  rw [List.append_assoc, List.singleton_append]

theorem slash_not_mem_of_sepFree {s : String}
    (hfree : ∀ c ∈ s.data, (c == '/') = false) : '/' ∉ s.data := by
  intro hmem
  have := hfree '/' hmem
  simp at this

theorem proper_of_startsWith :
    ∀ {D S : List String}, SegsOK D → SegsOK S → D ≠ [] → S ≠ [] →
      jsStartsWith (joinSegs D ++ "/") (joinSegs S) = true → D <+: S ∧ D ≠ S
  | [], _, _, _, hne, _, _ => absurd rfl hne
  | _, [], _, _, _, hne, _ => absurd rfl hne
  | [d], s :: S', hD, hS, _, _, h => by
    have hp : (joinSegs [d] ++ "/").data <+: (joinSegs (s :: S')).data :=
      List.isPrefixOf_iff_prefix.mp h
    have hda : (joinSegs [d] ++ "/").data = d.data ++ '/' :: [] := by
      show (d ++ "/").data = _
      rw [data_append]
    have hfd : ∀ c ∈ d.data, (c == '/') = false :=
      sepFree_of_segsOK hD (List.mem_cons_self _ _)
    have hfs : ∀ c ∈ s.data, (c == '/') = false :=
      sepFree_of_segsOK hS (List.mem_cons_self _ _)
    cases S' with
    | nil =>
      exfalso
      have hdb : (joinSegs [s]).data = s.data := rfl
      rw [hda, hdb] at hp
      have hmem : '/' ∈ s.data :=
        (hp.sublist).subset (by rw [List.mem_append]; right; exact List.mem_cons_self _ _)
      exact slash_not_mem_of_sepFree hfs hmem
    | cons t rest =>
      have hdb : (joinSegs (s :: t :: rest)).data = s.data ++ '/' :: (joinSegs (t :: rest)).data := by
        show ((s ++ "/") ++ joinSegs (t :: rest)).data = _
        rw [data_slash_append]
      rw [hda, hdb] at hp
      obtain ⟨hds, _⟩ := prefix_sep_split hfd hfs hp
      have : d = s := String.ext hds
      subst this
      refine ⟨⟨t :: rest, rfl⟩, by simp⟩
  | d :: d' :: D', s :: S', hD, hS, _, _, h => by
    have hp : (joinSegs (d :: d' :: D') ++ "/").data <+: (joinSegs (s :: S')).data :=
      List.isPrefixOf_iff_prefix.mp h
    have hda : (joinSegs (d :: d' :: D') ++ "/").data =
        d.data ++ '/' :: (joinSegs (d' :: D') ++ "/").data := by
      show (((d ++ "/") ++ joinSegs (d' :: D')) ++ "/").data = _
      have hsd : "/".data = ['/'] := rfl
      simp [data_append, hsd, List.append_assoc]
    have hfd : ∀ c ∈ d.data, (c == '/') = false :=
      sepFree_of_segsOK hD (List.mem_cons_self _ _)
    have hfs : ∀ c ∈ s.data, (c == '/') = false :=
      sepFree_of_segsOK hS (List.mem_cons_self _ _)
    cases S' with
    | nil =>
      exfalso
      have hdb : (joinSegs [s]).data = s.data := rfl
      rw [hda, hdb] at hp
      have hmem : '/' ∈ s.data :=
        (hp.sublist).subset (by rw [List.mem_append]; right; exact List.mem_cons_self _ _)
      exact slash_not_mem_of_sepFree hfs hmem
    | cons t rest =>
      have hdb : (joinSegs (s :: t :: rest)).data =
          s.data ++ '/' :: (joinSegs (t :: rest)).data := by
        show ((s ++ "/") ++ joinSegs (t :: rest)).data = _
        rw [data_slash_append]
      rw [hda, hdb] at hp
      obtain ⟨hds, hrest⟩ := prefix_sep_split hfd hfs hp
      have hdseq : d = s := String.ext hds
      subst hdseq
      have hrec : jsStartsWith (joinSegs (d' :: D') ++ "/") (joinSegs (t :: rest)) = true :=
        List.isPrefixOf_iff_prefix.mpr hrest
      obtain ⟨hpre, hne⟩ := proper_of_startsWith
        (fun x hx => hD x (List.mem_cons.mpr (Or.inr hx)))
        (fun x hx => hS x (List.mem_cons.mpr (Or.inr hx)))
        (by simp) (by simp) hrec
      refine ⟨List.cons_prefix_cons.mpr ⟨rfl, hpre⟩, ?_⟩
      intro hcontra
      exact hne (List.cons.inj hcontra).2

theorem startsWith_of_proper {D S : List String} (hDne : D ≠ []) (hp : D <+: S)
    (hneq : D ≠ S) : jsStartsWith (joinSegs D ++ "/") (joinSegs S) = true := by
  apply List.isPrefixOf_iff_prefix.mpr
  rw [joinSegs_decomp hDne hp hneq]
  rw [data_append]
  exact ⟨_, rfl⟩

theorem substring_of_proper {D S : List String} (hDne : D ≠ []) (hp : D <+: S)
    (hneq : D ≠ S) :
    jsSubstringFrom (joinSegs S) ((joinSegs D).length + 1) = joinSegs (S.drop D.length) := by
  apply String.ext
  show (joinSegs S).data.drop ((joinSegs D).length + 1) = _
  rw [joinSegs_decomp hDne hp hneq, data_append]
  have hlen : (joinSegs D).length + 1 = (joinSegs D ++ "/").data.length := by
    rw [← str_length, length_append_slash]
  rw [hlen, List.drop_left]

theorem prefix_snoc_of_proper {α : Type} (D S : List α) (d : α) (h : D <+: S)
    (hne : D ≠ S) : D ++ [S.getD D.length d] <+: S := by
  obtain ⟨t, ht⟩ := h
  cases t with
  | nil => exact absurd (by rw [← ht, List.append_nil]) hne
  | cons x t' =>
    have hget : S.getD D.length d = x := by
      rw [← ht]
      rw [← headD_drop, List.drop_left]
      rfl
    rw [hget, ← ht]
    exact ⟨t', by rw [List.append_assoc, List.singleton_append]⟩

/-! ## The resolver loop at a directory prefix -/

theorem proper_length {α : Type} {D S : List α} (hp : D <+: S) (hne : D ≠ S) :
    D.length < S.length := by
  rcases Nat.lt_or_ge D.length S.length with h | h
  · exact h
  · exact absurd (hp.eq_of_length (Nat.le_antisymm (hp.length_le) h)) hne

theorem nat_beq_sub {a b : Nat} : b < a → ((a - b == 1) : Bool) = (a == b + 1) := by
  intro hlt
  by_cases h : a = b + 1
  · have h1 : a - b = 1 := by omega
    rw [h1, h]
    simp
  · have h1 : a - b ≠ 1 := by omega
    have h2 : ((a - b == 1) : Bool) = false := by simp [h1]
    have h3 : ((a == b + 1) : Bool) = false := by simp [h]
    rw [h2, h3]

theorem segsOK_drop {S : List String} (hS : SegsOK S) (n : Nat) : SegsOK (S.drop n) :=
  fun s hs => hS s ((List.drop_sublist n S).subset hs)

theorem childSegsOf_at_dir {D : List String} (hD : SegsOK D) {p : String} (hp : wfPath p)
    (hprop : D <+: segs p) (hneq : D ≠ segs p) :
    childSegsOf (joinSegs D) p = (segs p).drop D.length := by
  unfold childSegsOf
  cases D with
  | nil =>
    rw [normSep_joinSegs hD]
    rw [if_neg (by intro h; exact h rfl)]
    exact segs p |>.drop_zero.symm ▸ rfl
  | cons d D' =>
    rw [normSep_joinSegs hD]
    rw [if_pos (by simp [joinSegs_ne_empty hD (by simp)])]
    have hsubst := substring_of_proper (D := d :: D') (S := segs p) (by simp) hprop hneq
    rw [joinSegs_segs] at hsubst
    rw [hsubst]
    apply splitSep_joinSegs (segsOK_drop (wf_segsOK hp) _)
    intro hnil
    have := proper_length hprop hneq
    have h2 : ((segs p).drop (d :: D').length).length = 0 := by rw [hnil]; rfl
    rw [List.length_drop] at h2
    omega

theorem childNameOf_at_dir {D : List String} (hD : SegsOK D) {p : String} (hp : wfPath p)
    (hprop : D <+: segs p) (hneq : D ≠ segs p) :
    childNameOf (joinSegs D) p = (segs p).getD D.length "" := by
  unfold childNameOf
  rw [childSegsOf_at_dir hD hp hprop hneq, headD_drop]

theorem childFlag_at_dir {D : List String} (hD : SegsOK D) {p : String} (hp : wfPath p)
    (hprop : D <+: segs p) (hneq : D ≠ segs p) :
    (((childSegsOf (joinSegs D) p).length == 1) : Bool) =
      ((segs p).length == D.length + 1) := by
  rw [childSegsOf_at_dir hD hp hprop hneq, List.length_drop]
  exact nat_beq_sub (proper_length hprop hneq)

theorem childGuard_at_dir {D : List String} (hD : SegsOK D) {p : String}
    (hprop : D <+: segs p) (hneq : D ≠ segs p) :
    (normSep (joinSegs D) ≠ "" &&
      !(jsStartsWith (normSep (joinSegs D) ++ "/") (normSep p))) = false := by
  rw [normSep_joinSegs hD]
  cases D with
  | nil =>
    have h0 : joinSegs ([] : List String) = "" := rfl
    rw [h0]
    simp
  | cons d D' =>
    have hsw : jsStartsWith (joinSegs (d :: D') ++ "/") (normSep p) = true := by
      rw [← joinSegs_segs p]
      exact startsWith_of_proper (by simp) hprop hneq
    rw [hsw]
    simp

theorem childName_at_dir_ne {D : List String} {p : String} (hp : wfPath p)
    (hprop : D <+: segs p) (hneq : D ≠ segs p) :
    (segs p).getD D.length "" ≠ "" := by
  have hsnoc := prefix_snoc_of_proper D (segs p) "" hprop hneq
  have hmem : (segs p).getD D.length "" ∈ segs p := by
    apply (hsnoc.sublist).subset
    rw [List.mem_append]
    right
    exact List.mem_cons_self _ _
  exact hp _ hmem

/-- The behaviour of one loop iteration when the parent is a joined
segment prefix `D` and the entry is well formed: either the entry lies
properly below `D` and contributes the segment at index `|D|` (first
wins), or it is skipped. -/
theorem childStep_at_dir {D : List String} (hD : SegsOK D) {p : String} (hp : wfPath p)
    (m : List (String × ChildInfo)) :
    childStep (joinSegs D) m p =
      if D.isPrefixOf (segs p) && !(D == segs p) then
        (if (List.lookup ((segs p).getD D.length "") m).isNone = true then
          m ++ [((segs p).getD D.length "",
            ⟨joinRel (joinSegs D) ((segs p).getD D.length ""),
              (segs p).length == D.length + 1⟩)]
        else m)
      else m := by
  by_cases hprop : D <+: segs p ∧ D ≠ segs p
  · obtain ⟨hpre, hneq⟩ := hprop
    rw [if_pos (by
      rw [Bool.and_eq_true]
      constructor
      · exact List.isPrefixOf_iff_prefix.mpr hpre
      · simp [hneq])]
    rw [childStep_eq]
    rw [if_neg (by
      rw [childGuard_at_dir hD hpre hneq]
      simp)]
    rw [childNameOf_at_dir hD hp hpre hneq, childFlag_at_dir hD hp hpre hneq]
    have hne := childName_at_dir_ne hp hpre hneq
    by_cases hlook : (List.lookup ((segs p).getD D.length "") m).isNone = true
    · rw [if_pos hlook, if_pos (by rw [Bool.and_eq_true]; exact ⟨decide_eq_true hne, hlook⟩)]
    · rw [if_neg hlook, if_neg (by
        rw [Bool.and_eq_true]
        intro ⟨_, h2⟩
        exact hlook h2)]
  · rw [if_neg (by
      rw [Bool.and_eq_true]
      intro ⟨h1, h2⟩
      exact hprop ⟨List.isPrefixOf_iff_prefix.mp h1, by simpa using h2⟩)]
    cases D with
    | nil =>
      exfalso
      exact hprop ⟨List.nil_prefix, fun h => segs_ne_nil p h.symm⟩
    | cons d D' =>
      rw [childStep_eq]
      rw [if_pos (by
        rw [Bool.and_eq_true]
        refine ⟨by simp [normSep_joinSegs hD, joinSegs_ne_empty hD (by simp)], ?_⟩
        have hsw : jsStartsWith (normSep (joinSegs (d :: D')) ++ "/") (normSep p) = false := by
          rw [normSep_joinSegs hD, ← joinSegs_segs p]
          cases hb : jsStartsWith (joinSegs (d :: D') ++ "/") (joinSegs (segs p))
          · rfl
          · exfalso
            exact hprop (proper_of_startsWith hD (wf_segsOK hp) (by simp) (segs_ne_nil p) hb)
        rw [hsw]
        rfl)]

/-! ## The child map at a directory prefix: soundness and completeness -/

theorem sound_foldl_at_dir {D : List String} (hD : SegsOK D) (paths₀ : List String)
    (hwf₀ : ∀ p ∈ paths₀, wfPath p) :
    ∀ (l : List String) (m : List (String × ChildInfo)),
      (∀ x ∈ l, x ∈ paths₀) →
      (∀ n info, (n, info) ∈ m →
        ∃ p ∈ paths₀, D <+: segs p ∧ D ≠ segs p ∧ n = (segs p).getD D.length "" ∧
          info = ⟨joinRel (joinSegs D) n, (segs p).length == D.length + 1⟩) →
      ∀ n info, (n, info) ∈ l.foldl (childStep (joinSegs D)) m →
        ∃ p ∈ paths₀, D <+: segs p ∧ D ≠ segs p ∧ n = (segs p).getD D.length "" ∧
          info = ⟨joinRel (joinSegs D) n, (segs p).length == D.length + 1⟩ := by
  intro l
  induction l with
  | nil => intro m _ hm; exact hm
  | cons q rest ih =>
    intro m hl hm
    apply ih (childStep (joinSegs D) m q) (fun x hx => hl x (List.mem_cons.mpr (Or.inr hx)))
    intro n info hmem
    rw [childStep_at_dir hD (hwf₀ q (hl q (List.mem_cons_self _ _))) m] at hmem
    split at hmem
    · rename_i hcond
      rw [Bool.and_eq_true] at hcond
      have hpre : D <+: segs q := List.isPrefixOf_iff_prefix.mp hcond.1
      have hneq : D ≠ segs q := by simpa using hcond.2
      split at hmem
      · rcases List.mem_append.mp hmem with hmem | hmem
        · exact hm n info hmem
        · simp only [List.mem_singleton, Prod.mk.injEq] at hmem
          obtain ⟨hn, hinfo⟩ := hmem
          exact ⟨q, hl q (List.mem_cons_self _ _), hpre, hneq, hn, by rw [hinfo, hn]⟩
      · exact hm n info hmem
    · exact hm n info hmem

theorem buildChildren_at_dir_sound {D : List String} (hD : SegsOK D) {paths : List String}
    (hwf : ∀ p ∈ paths, wfPath p) :
    ∀ n info, (n, info) ∈ buildChildren paths (joinSegs D) →
      ∃ p ∈ paths, D <+: segs p ∧ D ≠ segs p ∧ n = (segs p).getD D.length "" ∧
        info = ⟨joinRel (joinSegs D) n, (segs p).length == D.length + 1⟩ :=
  sound_foldl_at_dir hD paths hwf paths [] (fun _ hx => hx)
    (by intro n info h; simp at h)

theorem lookup_append_left {β : Type} {m t : List (String × β)} {k : String} {v : β}
    (h : List.lookup k m = some v) : List.lookup k (m ++ t) = some v := by
  induction m with
  | nil => simp [List.lookup] at h
  | cons e rest ih =>
    obtain ⟨e₁, e₂⟩ := e
    rw [List.lookup] at h
    rw [List.cons_append, List.lookup]
    split
    · rename_i heq
      rw [heq] at h
      exact h
    · rename_i hne
      rw [hne] at h
      exact ih h

theorem childStep_extends (parent : String) (m : List (String × ChildInfo)) (p : String) :
    ∃ t, childStep parent m p = m ++ t := by
  rw [childStep_eq]
  split
  · exact ⟨[], (List.append_nil m).symm⟩
  · split
    · exact ⟨_, rfl⟩
    · exact ⟨[], (List.append_nil m).symm⟩

theorem lookup_isSome_childStep {parent : String} {m : List (String × ChildInfo)}
    {p n : String} (h : (List.lookup n m).isSome = true) :
    (List.lookup n (childStep parent m p)).isSome = true := by
  obtain ⟨t, ht⟩ := childStep_extends parent m p
  obtain ⟨v, hv⟩ := Option.isSome_iff_exists.mp h
  rw [ht, lookup_append_left hv]
  rfl

theorem lookup_isSome_foldl (parent : String) (n : String) :
    ∀ (l : List String) (m : List (String × ChildInfo)),
      (List.lookup n m).isSome = true →
      (List.lookup n (l.foldl (childStep parent) m)).isSome = true := by
  intro l
  induction l with
  | nil => intro m h; exact h
  | cons q rest ih =>
    intro m h
    exact ih (childStep parent m q) (lookup_isSome_childStep h)

theorem present_after_step {D : List String} (hD : SegsOK D) {q : String} (hq : wfPath q)
    (hpre : D <+: segs q) (hneq : D ≠ segs q) (m : List (String × ChildInfo)) :
    (List.lookup ((segs q).getD D.length "")
      (childStep (joinSegs D) m q)).isSome = true := by
  rw [childStep_at_dir hD hq m]
  rw [if_pos (by
    rw [Bool.and_eq_true]
    exact ⟨List.isPrefixOf_iff_prefix.mpr hpre, by simp [hneq]⟩)]
  by_cases hlook : (List.lookup ((segs q).getD D.length "") m).isNone = true
  · rw [if_pos hlook]
    have hnone : List.lookup ((segs q).getD D.length "") m = none :=
      Option.isNone_iff_eq_none.mp hlook
    rw [lookup_append_right hnone, if_pos rfl]
    rfl
  · rw [if_neg hlook]
    rcases hl : List.lookup ((segs q).getD D.length "") m with _ | v
    · rw [hl] at hlook
      simp at hlook
    · rfl

theorem complete_foldl {D : List String} (hD : SegsOK D) :
    ∀ (l : List String) (m : List (String × ChildInfo)) (q : String),
      q ∈ l → (∀ p ∈ l, wfPath p) → D <+: segs q → D ≠ segs q →
      (List.lookup ((segs q).getD D.length "")
        (l.foldl (childStep (joinSegs D)) m)).isSome = true := by
  intro l
  induction l with
  | nil => intro m q hq; simp at hq
  | cons x rest ih =>
    intro m q hq hwf hpre hneq
    rcases List.mem_cons.mp hq with hq | hq
    · subst hq
      exact lookup_isSome_foldl (joinSegs D) _ rest _
        (present_after_step hD (hwf q (List.mem_cons_self _ _)) hpre hneq m)
    · exact ih (childStep (joinSegs D) m x) q hq
        (fun p hp => hwf p (List.mem_cons.mpr (Or.inr hp))) hpre hneq

theorem buildChildren_at_dir_complete {D : List String} (hD : SegsOK D)
    {paths : List String} (hwf : ∀ p ∈ paths, wfPath p) {q : String} (hq : q ∈ paths)
    (hpre : D <+: segs q) (hneq : D ≠ segs q) :
    ∃ info, ((segs q).getD D.length "", info) ∈ buildChildren paths (joinSegs D) := by
  have h := complete_foldl hD paths [] q hq hwf hpre hneq
  obtain ⟨info, hinfo⟩ := Option.isSome_iff_exists.mp h
  exact ⟨info, lookup_mem hinfo⟩

/-! ## The sorted child list at a directory prefix -/

theorem core_sound {D : List String} (hD : SegsOK D) {paths : List String}
    (hwf : ∀ p ∈ paths, wfPath p) :
    ∀ c ∈ getChildrenCore paths (joinSegs D),
      ∃ p ∈ paths, D <+: segs p ∧ D ≠ segs p ∧ c.name = (segs p).getD D.length "" ∧
        c.isFile = ((segs p).length == D.length + 1) := by
  intro c hc
  rw [getChildrenCore_eq] at hc
  obtain ⟨k, hk, hck⟩ := List.mem_map.mp hc
  have hkmem : k ∈ (buildChildren paths (joinSegs D)).map Prod.fst :=
    ((sortStrings_perm _).mem_iff).mp hk
  obtain ⟨info, hinfo⟩ := Option.isSome_iff_exists.mp (lookup_isSome_iff.mpr hkmem)
  obtain ⟨p, hp, hpre, hneq, hn, hinfoeq⟩ :=
    buildChildren_at_dir_sound hD hwf k info (lookup_mem hinfo)
  have hcn : c.name = k := by rw [← hck]
  have hcf : c.isFile = info.isFile := by rw [← hck]; simp [hinfo]
  exact ⟨p, hp, hpre, hneq, by rw [hcn]; exact hn, by rw [hcf, hinfoeq]⟩

theorem core_complete {D : List String} (hD : SegsOK D) {paths : List String}
    (hwf : ∀ p ∈ paths, wfPath p) {q : String} (hq : q ∈ paths)
    (hpre : D <+: segs q) (hneq : D ≠ segs q) :
    ∃ c ∈ getChildrenCore paths (joinSegs D), c.name = (segs q).getD D.length "" := by
  obtain ⟨info, hmem⟩ := buildChildren_at_dir_complete hD hwf hq hpre hneq
  have hk : (segs q).getD D.length "" ∈ (buildChildren paths (joinSegs D)).map Prod.fst :=
    List.mem_map.mpr ⟨_, hmem, rfl⟩
  have hks : (segs q).getD D.length "" ∈
      sortStrings ((buildChildren paths (joinSegs D)).map Prod.fst) :=
    ((sortStrings_perm _).mem_iff).mpr hk
  rw [getChildrenCore_eq]
  exact ⟨_, List.mem_map.mpr ⟨_, hks, rfl⟩, rfl⟩

theorem core_flag {D : List String} (hD : SegsOK D) {paths : List String}
    (hwf : ∀ p ∈ paths, wfPath p) (hpf : prefixFree paths) :
    ∀ c ∈ getChildrenCore paths (joinSegs D),
      (c.isFile = true ↔ ∃ q ∈ paths, segs q = D ++ [c.name]) := by
  intro c hc
  obtain ⟨p, hp, hpre, hneq, hn, hflag⟩ := core_sound hD hwf c hc
  have hsnoc : D ++ [c.name] <+: segs p := by
    rw [hn]
    exact prefix_snoc_of_proper D (segs p) "" hpre hneq
  constructor
  · intro hf
    rw [hf] at hflag
    have hlen : (segs p).length = D.length + 1 := by
      have := hflag.symm
      simpa using this
    refine ⟨p, hp, ?_⟩
    exact (hsnoc.eq_of_length (by rw [hlen, List.length_append]; rfl)).symm
  · rintro ⟨q, hq, hseq⟩
    cases hf : c.isFile with
    | true => rfl
    | false =>
      exfalso
      rw [hf] at hflag
      have hlen : (segs p).length ≠ D.length + 1 := by
        intro h
        rw [h] at hflag
        simp at hflag
      have hlt : D.length < (segs p).length := proper_length hpre hneq
      have hqp : (segs q).isPrefixOf (segs p) = true := by
        apply List.isPrefixOf_iff_prefix.mpr
        rw [hseq]
        exact hsnoc
      have := hpf q hq p hp hqp
      rw [hseq] at this
      have hl2 := congrArg List.length this
      rw [List.length_append] at hl2
      simp at hl2
      omega

/-! ## The round-trip reconstruction -/

theorem segsOK_nil : SegsOK [] := fun s hs => absurd hs (List.not_mem_nil s)

theorem segsOK_snoc_of_mem {D : List String} (hD : SegsOK D) {p : String} (hp : wfPath p)
    {n : String} (hsnoc : D ++ [n] <+: segs p) : SegsOK (D ++ [n]) := by
  intro s hs
  rcases List.mem_append.mp hs with hs | hs
  · exact hD s hs
  · have hn : s = n := by simpa using hs
    subst hn
    have hmem : s ∈ segs p :=
      (hsnoc.sublist).subset (List.mem_append.mpr (Or.inr (List.mem_cons_self _ _)))
    exact ⟨hp s hmem, segs_sepFree p s hmem⟩

theorem maxDepth_bound {paths : List String} : ∀ p ∈ paths, (segs p).length ≤ maxDepth paths := by
  induction paths with
  | nil => intro p hp; simp at hp
  | cons q rest ih =>
    intro p hp
    have hstep : maxDepth (q :: rest) = max (segs q).length (maxDepth rest) := rfl
    rcases List.mem_cons.mp hp with hp | hp
    · rw [hp, hstep]
      exact Nat.le_max_left _ _
    · rw [hstep]
      exact Nat.le_trans (ih p hp) (Nat.le_max_right _ _)

theorem collectLeaves_at_dir {paths : List String} (hwf : ∀ p ∈ paths, wfPath p)
    (hpf : prefixFree paths) :
    ∀ (fuel : Nat) (D : List String), SegsOK D →
      (∀ p ∈ paths, D <+: segs p → (segs p).length ≤ D.length + fuel) →
      ∀ q, q ∈ collectLeaves paths (joinSegs D) fuel ↔
        (∃ p ∈ paths, normSep p = q ∧ D <+: segs p ∧ D ≠ segs p) := by
  intro fuel
  induction fuel with
  | zero =>
    intro D hD hbound q
    constructor
    · intro h
      simp [collectLeaves] at h
    · rintro ⟨p, hp, _, hpre, hneq⟩
      have h1 := hbound p hp hpre
      have h2 := proper_length hpre hneq
      omega
  | succ fuel ih =>
    intro D hD hbound q
    have hstep : collectLeaves paths (joinSegs D) (fuel + 1) =
        (getChildrenCore paths (joinSegs D)).flatMap (fun c =>
          if c.isFile then [joinRel (joinSegs D) c.name]
          else collectLeaves paths (joinRel (joinSegs D) c.name) fuel) := rfl
    rw [hstep, List.mem_flatMap]
    constructor
    · rintro ⟨c, hc, hq⟩
      obtain ⟨p, hp, hpre, hneq, hn, _⟩ := core_sound hD hwf c hc
      have hsnoc : D ++ [c.name] <+: segs p := by
        rw [hn]
        exact prefix_snoc_of_proper D (segs p) "" hpre hneq
      have hDn : SegsOK (D ++ [c.name]) := segsOK_snoc_of_mem hD (hwf p hp) hsnoc
      by_cases hf : c.isFile = true
      · rw [if_pos hf, List.mem_singleton] at hq
        obtain ⟨q', hq'mem, hseq⟩ := (core_flag hD hwf hpf c hc).mp hf
        refine ⟨q', hq'mem, ?_, ?_, ?_⟩
        · rw [← joinSegs_segs q', hseq, joinSegs_snoc hD, ← hq]
        · rw [hseq]
          exact List.prefix_append D [c.name]
        · rw [hseq]
          intro hcontra
          have := congrArg List.length hcontra
          rw [List.length_append] at this
          simp at this
      · have hf' : c.isFile = false := by revert hf; cases c.isFile <;> simp
        rw [if_neg hf] at hq
        rw [← joinSegs_snoc hD c.name] at hq
        have hbound' : ∀ p' ∈ paths, (D ++ [c.name]) <+: segs p' →
            (segs p').length ≤ (D ++ [c.name]).length + fuel := by
          intro p' hp' hpre'
          have hDp : D <+: segs p' := (List.prefix_append D [c.name]).trans hpre'
          have := hbound p' hp' hDp
          rw [List.length_append]
          simp only [List.length_singleton]
          omega
        obtain ⟨p', hp', hnorm, hpre', hneq'⟩ := (ih (D ++ [c.name]) hDn hbound' q).mp hq
        refine ⟨p', hp', hnorm, (List.prefix_append D [c.name]).trans hpre', ?_⟩
        intro hcontra
        have h1 := proper_length hpre' hneq'
        rw [← hcontra, List.length_append] at h1
        simp at h1
    · rintro ⟨p, hp, hnorm, hpre, hneq⟩
      have hsnoc : D ++ [(segs p).getD D.length ""] <+: segs p :=
        prefix_snoc_of_proper D (segs p) "" hpre hneq
      obtain ⟨c, hc, hcn⟩ := core_complete hD hwf hp hpre hneq
      have hsnocc : D ++ [c.name] <+: segs p := by rw [hcn]; exact hsnoc
      have hDn : SegsOK (D ++ [c.name]) := segsOK_snoc_of_mem hD (hwf p hp) hsnocc
      refine ⟨c, hc, ?_⟩
      have hflagiff := core_flag hD hwf hpf c hc
      by_cases hex : ∃ q' ∈ paths, segs q' = D ++ [c.name]
      · have hf : c.isFile = true := hflagiff.mpr hex
        rw [if_pos hf, List.mem_singleton]
        obtain ⟨q', hq', hseq⟩ := hex
        have hqp : (segs q').isPrefixOf (segs p) = true := by
          apply List.isPrefixOf_iff_prefix.mpr
          rw [hseq]
          exact hsnocc
        have hqq := hpf q' hq' p hp hqp
        have hsegsp : segs p = D ++ [c.name] := by rw [← hqq, hseq]
        rw [← hnorm, ← joinSegs_segs p, hsegsp, joinSegs_snoc hD]
      · have hf : c.isFile = false := by
          cases hcf : c.isFile
          · rfl
          · exact absurd (hflagiff.mp hcf) hex
        rw [if_neg (by simp [hf])]
        rw [← joinSegs_snoc hD c.name]
        have hbound' : ∀ p' ∈ paths, (D ++ [c.name]) <+: segs p' →
            (segs p').length ≤ (D ++ [c.name]).length + fuel := by
          intro p' hp' hpre'
          have hDp : D <+: segs p' := (List.prefix_append D [c.name]).trans hpre'
          have := hbound p' hp' hDp
          rw [List.length_append]
          simp only [List.length_singleton]
          omega
        apply (ih (D ++ [c.name]) hDn hbound' q).mpr
        refine ⟨p, hp, hnorm, hsnocc, ?_⟩
        intro hcontra
        exact hex ⟨p, hp, hcontra.symm⟩

/-- C2 (amended): when every entry's normalized path has no empty
segments and no entry's path is a strict prefix of another's, the
recursive reconstruction from the root reproduces exactly the set of
normalized entry paths, and the reconstructed set depends only on the
membership of the entry list, not on its order.  (As literally stated the
claim is false; see the counterexample.) -/
theorem C2_round_trip_amended (paths : List String) (fuel : Nat)
    (hwf : ∀ p ∈ paths, wfPath p) (hpf : prefixFree paths)
    (hfuel : maxDepth paths ≤ fuel) :
    (∀ q, q ∈ collectLeaves paths "" fuel ↔ ∃ p ∈ paths, normSep p = q) ∧
    (∀ (paths₂ : List String) (fuel₂ : Nat), (∀ x, x ∈ paths₂ ↔ x ∈ paths) →
      maxDepth paths₂ ≤ fuel₂ →
      ∀ q, q ∈ collectLeaves paths₂ "" fuel₂ ↔ q ∈ collectLeaves paths "" fuel) := by
  have hroot : ∀ (ps : List String) (f : Nat), (∀ p ∈ ps, wfPath p) → prefixFree ps →
      maxDepth ps ≤ f → ∀ q, q ∈ collectLeaves ps "" f ↔ ∃ p ∈ ps, normSep p = q := by
    intro ps f hw hf hd q
    have h0 : joinSegs ([] : List String) = "" := rfl
    have hbound : ∀ p ∈ ps, ([] : List String) <+: segs p →
        (segs p).length ≤ ([] : List String).length + f := by
      intro p hp _
      have := maxDepth_bound p hp
      simp only [List.length_nil]
      omega
    have hbase := collectLeaves_at_dir hw hf f [] segsOK_nil hbound q
    rw [h0] at hbase
    rw [hbase]
    constructor
    · rintro ⟨p, hp, hn, _, _⟩
      exact ⟨p, hp, hn⟩
    · rintro ⟨p, hp, hn⟩
      exact ⟨p, hp, hn, List.nil_prefix, fun h => segs_ne_nil p h.symm⟩
  refine ⟨hroot paths fuel hwf hpf hfuel, ?_⟩
  intro paths₂ fuel₂ hmem hfuel₂ q
  have hwf₂ : ∀ p ∈ paths₂, wfPath p := fun p hp => hwf p ((hmem p).mp hp)
  have hpf₂ : prefixFree paths₂ := fun p hp q' hq' h =>
    hpf p ((hmem p).mp hp) q' ((hmem q').mp hq') h
  rw [hroot paths₂ fuel₂ hwf₂ hpf₂ hfuel₂ q, hroot paths fuel hwf hpf hfuel q]
  constructor
  · rintro ⟨p, hp, hn⟩
    exact ⟨p, (hmem p).mp hp, hn⟩
  · rintro ⟨p, hp, hn⟩
    exact ⟨p, (hmem p).mpr hp, hn⟩

/-- Counterexample to C2 as stated: with entries `["a", "a/b"]` (one
path a strict prefix of the other) the reconstruction loses entries and
depends on the entry order, and with the valid (non-empty,
non-whitespace) entry `"/a"` (empty first segment) it loses the entry
entirely. -/
theorem C2_counterexample :
    collectLeaves ["a", "a/b"] "" 3 = ["a"] ∧
    collectLeaves ["a/b", "a"] "" 3 = ["a/b"] ∧
    ("a/b" ∈ ["a", "a/b"] ∧ "a/b" ∉ collectLeaves ["a", "a/b"] "" 3) ∧
    collectLeaves ["/a"] "" 3 = [] ∧ ("/a" ≠ "" ∧ jsTrim "/a" ≠ "") := by
  decide

/-- Witness for the amended C2 at the concrete entry set `["a/b", "c"]`. -/
theorem C2_witness :
    (∀ q, q ∈ collectLeaves ["a/b", "c"] "" 2 ↔ ∃ p ∈ ["a/b", "c"], normSep p = q) ∧
    (∀ (paths₂ : List String) (fuel₂ : Nat), (∀ x, x ∈ paths₂ ↔ x ∈ ["a/b", "c"]) →
      maxDepth paths₂ ≤ fuel₂ →
      ∀ q, q ∈ collectLeaves paths₂ "" fuel₂ ↔ q ∈ collectLeaves ["a/b", "c"] "" 2) :=
  C2_round_trip_amended ["a/b", "c"] 2 (by decide) (by decide) (by decide)

/-! ## The JSON loader (`src/utils.ts`, `readAicodecJson`)

The file system and JSON parser are modelled by small inductive types
describing the outcome of the read: the resource may be missing
(`FileSystemError` with code `FileNotFound`), the read or the parse may
fail with any other error, or parsing may succeed with a JSON value.
The loader's `Bool` result records whether `showErrorMessage` was
called. -/

/-- The `filePath` field of a parsed JSON item: absent, a string, or
present with a non-string value. -/
inductive JField
  | absent
  | str (s : String)
  | nonStr
deriving DecidableEq, Repr

/-- One element of the parsed entry array (`item` may be null). -/
inductive JItem
  | null
  | obj (filePath : JField) (content : String)
deriving DecidableEq, Repr

/-- The parsed JSON document: a top-level array, an object whose
`changes` field may or may not be an array, or any other value. -/
inductive JVal
  | arr (items : List JItem)
  | obj (changes : Option (List JItem))
  | other
deriving DecidableEq, Repr

/-- The outcome of reading and parsing the resource. -/
inductive Resource
  | missing
  | failed
  | parsed (v : JVal)
deriving DecidableEq, Repr

/-- The `AicodecFile` interface (with the extended `revertSession` tag). -/
structure AicodecFile where
  filePath : String
  content : String
  revertSession : Option String
deriving DecidableEq, Repr

/-- `item && typeof item.filePath === 'string'`. -/
def validItem : JItem → Option AicodecFile
  | .null => none
  | .obj (.str s) c => some ⟨s, c, none⟩
  | .obj _ _ => none

/-- `readAicodecJson` for a single-document source: the entry list and
whether a user-visible diagnostic was shown. -/
def readAicodecJson : Resource → List AicodecFile × Bool
  | .missing => ([], false)
  | .failed => ([], true)
  | .parsed v =>
    let fileList := match v with
      | .arr items => items
      | .obj (some items) => items
      | _ => []
    (fileList.filterMap validItem, false)

/-- The path filter of `ensureFilePathsLoaded`:
`p && p.trim() !== ''`. -/
def isValidPath (p : String) : Bool := p ≠ "" && jsTrim p ≠ ""

/-- The provider's cached state (simple provider). -/
structure ProviderState where
  jsonFileName : String
  relativeFilePaths : Option (List String)
deriving DecidableEq, Repr

/-- `ensureFilePathsLoaded`: a no-op when the cache is set; otherwise
loads, maps to `filePath` and drops invalid paths.  `configured` models
`getAicodecPath()` returning a value. -/
def ensureFilePathsLoaded (configured : Bool) (resource : Resource) (s : ProviderState) :
    ProviderState :=
  if s.relativeFilePaths.isSome then s
  else if !configured then ⟨s.jsonFileName, some []⟩
  else ⟨s.jsonFileName,
    some (((readAicodecJson resource).1.map (fun f => f.filePath)).filter isValidPath)⟩

/-- C5: loading the entry list `[{filePath:"a/b.txt", content:"1"},
{content:"2"}, {filePath:"", content:"3"}]` yields exactly one valid
entry (`a/b.txt`); in general every loaded path stems from an entry
whose path field is a string, and is neither empty nor whitespace-only. -/
theorem C5_malformed_entries :
    (ensureFilePathsLoaded true
      (.parsed (.arr [.obj (.str "a/b.txt") "1", .obj .absent "2", .obj (.str "") "3"]))
      ⟨"context.json", none⟩).relativeFilePaths = some ["a/b.txt"] ∧
    (∀ (r : Resource) (name : String) (p : String),
      p ∈ ((ensureFilePathsLoaded true r ⟨name, none⟩).relativeFilePaths.getD []) →
      (∃ item ∈ (readAicodecJson r).1, item.filePath = p) ∧ p ≠ "" ∧ jsTrim p ≠ "") := by
  constructor
  · rfl
  · intro r name p hp
    have hload : (ensureFilePathsLoaded true r ⟨name, none⟩).relativeFilePaths =
        some (((readAicodecJson r).1.map (fun f => f.filePath)).filter isValidPath) := rfl
    rw [hload] at hp
    simp only [Option.getD_some] at hp
    obtain ⟨hmem, hvalid⟩ := List.mem_filter.mp hp
    obtain ⟨item, hitem, hfp⟩ := List.mem_map.mp hmem
    unfold isValidPath at hvalid
    rw [Bool.and_eq_true] at hvalid
    exact ⟨⟨item, hitem, hfp⟩, by simpa using hvalid.1, by simpa using hvalid.2⟩

/-- Witness for C5: the loaded path `a/b.txt` of the scenario is traced
back to its entry and certified non-blank. -/
theorem C5_witness :
    (∃ item ∈ (readAicodecJson
      (.parsed (.arr [.obj (.str "a/b.txt") "1", .obj .absent "2", .obj (.str "") "3"]))).1,
      item.filePath = "a/b.txt") ∧ "a/b.txt" ≠ "" ∧ jsTrim "a/b.txt" ≠ "" :=
  C5_malformed_entries.2
    (.parsed (.arr [.obj (.str "a/b.txt") "1", .obj .absent "2", .obj (.str "") "3"]))
    "context.json" "a/b.txt" (by decide)

/-- C7: a non-existent resource loads as an empty sequence with no
user-visible diagnostic; any other read or parse failure loads as an
empty sequence with a diagnostic; a successfully parsed resource never
reports one. -/
theorem C7_missing_resource_empty :
    readAicodecJson .missing = ([], false) ∧
    readAicodecJson .failed = ([], true) ∧
    (∀ v, (readAicodecJson (.parsed v)).2 = false) :=
  ⟨rfl, rfl, fun _ => rfl⟩

/-! ## The session-aware loader (`readRevertFiles`)

The reverts directory is modelled as a list of file names paired with
the outcome of reading and parsing each per-session document. -/

/-- One change record inside a session document.  `filePath`/`content`
are `none` when the field is absent (or otherwise falsy for the
`if (change.filePath)` check). -/
structure RevChange where
  filePath : Option String
  content : Option String
deriving DecidableEq, Repr

/-- JS truthiness of an optional string field. -/
def truthyStr : Option String → Bool
  | some s => s ≠ ""
  | none => false

/-- A per-session document: reading or `JSON.parse` may throw, or the
document parses with an optional `changes` array. -/
inductive SessionDoc
  | malformed
  | doc (changes : Option (List RevChange))
deriving DecidableEq, Repr

/-- The reverts directory: missing, unreadable, or listing per-session
documents by file name. -/
inductive RevertDir
  | missing
  | unreadable
  | files (entries : List (String × SessionDoc))
deriving DecidableEq, Repr

/-- `f.startsWith('revert-') && f.endsWith('.json')`. -/
def isRevertFileName (f : String) : Bool :=
  jsStartsWith "revert-" f && jsEndsWith ".json" f

/-- Entries extracted from one session document: a malformed document is
caught, logged and contributes nothing; otherwise each truthy
`change.filePath` yields an `AicodecFile` tagged with the session file
name, with `change.content || ''`. -/
def sessionEntries (entries : List (String × SessionDoc)) (name : String) : List AicodecFile :=
  match List.lookup name entries with
  | some (.doc changes) =>
    (changes.getD []).filterMap (fun change =>
      if truthyStr change.filePath then
        some ⟨change.filePath.getD "", change.content.getD "", some name⟩
      else none)
  | some .malformed => []
  | none => []

/-- `readRevertFiles`: list the directory, keep the `revert-*.json`
names, `.sort().reverse()` them, and flatten each document's entries. -/
def readRevertFiles : RevertDir → List AicodecFile
  | .missing => []
  | .unreadable => []
  | .files entries =>
    let revertFiles := (entries.map Prod.fst).filter isRevertFileName
    ((sortStrings revertFiles).reverse).flatMap (sessionEntries entries)

/-- A match of the regex `/revert-(\d+)\.json/` tried at the start of
the input: the literal `revert-`, then one or more digits (greedy, and
no backtracking is possible since `.` is not a digit), then `.json`. -/
def matchRevertAt (l : List Char) : Option (List Char) :=
  if "revert-".data.isPrefixOf l then
    let rest := l.drop "revert-".data.length
    let ds := rest.takeWhile Char.isDigit
    if ds.isEmpty then none
    else if ".json".data.isPrefixOf (rest.drop ds.length) then some ds
    else none
  else none

/-- The unanchored regex search: try every start position. -/
def findRevertNum : List Char → Option (List Char)
  | [] => none
  | c :: rest =>
    match matchRevertAt (c :: rest) with
    | some ds => some ds
    | none => findRevertNum rest

/-- `parseInt` of a digit string. -/
def digitsValue (l : List Char) : Nat :=
  l.foldl (fun acc c => acc * 10 + (c.toNat - '0'.toNat)) 0

/-- `sessionName.match(/revert-(\d+)\.json/)` followed by
`parseInt(match[1], 10)`, defaulting to `0` on no match. -/
def parseSessionNum (s : String) : Nat :=
  match findRevertNum s.data with
  | some ds => digitsValue ds
  | none => 0

example : parseSessionNum "revert-001.json" = 1 := by decide

example : parseSessionNum "revert-42.json" = 42 := by decide

theorem strLtB_irrefl (l : List Char) : strLtB l l = false := by
  induction l with
  | nil => rfl
  | cons a as ih =>
    show strLtB (a :: as) (a :: as) = false
    simp only [strLtB, charLtB, decide_eq_true_eq]
    rw [if_neg (by omega), if_neg (by omega)]
    exact ih

theorem strLe_refl (a : String) : strLe a a := by
  unfold strLe strLeB
  rw [strLtB_irrefl]
  rfl

theorem sorted_flatMap_blocks {α : Type} (names : List String) (f : String → List α)
    (g : α → String) (hblock : ∀ n, ∀ a ∈ f n, g a = n)
    (hsorted : List.Sorted (fun a b => strLe b a) names) :
    List.Sorted (fun a b => strLe b a) ((names.flatMap f).map g) := by
  induction names with
  | nil => simp [List.Sorted]
  | cons n rest ih =>
    rw [List.flatMap_cons, List.map_append]
    obtain ⟨hhead, htail⟩ := List.pairwise_cons.mp hsorted
    apply List.pairwise_append.mpr
    refine ⟨?_, ih htail, ?_⟩
    · rw [List.pairwise_map]
      apply List.pairwise_of_forall_mem_list
      intro a ha b hb
      rw [hblock n a ha, hblock n b hb]
      exact strLe_refl n
    · intro a ha b hb
      obtain ⟨b', hb', hgb⟩ := List.mem_map.mp hb
      obtain ⟨n', hn', hbn'⟩ := List.mem_flatMap.mp hb'
      obtain ⟨a', ha', hga⟩ := List.mem_map.mp ha
      rw [← hgb, ← hga, hblock n' b' hbn', hblock n a' ha']
      exact hhead n' hn'

theorem sessionEntries_tag {entries : List (String × SessionDoc)} {name : String} :
    ∀ a ∈ sessionEntries entries name, a.revertSession = some name := by
  intro a ha
  unfold sessionEntries at ha
  rcases hl : List.lookup name entries with _ | doc
  · rw [hl] at ha
    simp at ha
  · rw [hl] at ha
    cases doc with
    | malformed => simp at ha
    | doc changes =>
      obtain ⟨change, _, hsome⟩ := List.mem_filterMap.mp ha
      by_cases ht : truthyStr change.filePath = true
      · rw [if_pos ht] at hsome
        rw [← Option.some.inj hsome]
      · rw [if_neg ht] at hsome
        simp at hsome

theorem revert_provenance {entries : List (String × SessionDoc)} :
    ∀ f ∈ readRevertFiles (.files entries),
      ∃ name changes, f.revertSession = some name ∧ isRevertFileName name = true ∧
        List.lookup name entries = some (.doc changes) ∧
        ∃ change ∈ changes.getD [], truthyStr change.filePath = true ∧
          f = ⟨change.filePath.getD "", change.content.getD "", some name⟩ := by
  intro f hf
  have hf' : f ∈ ((sortStrings ((entries.map Prod.fst).filter isRevertFileName)).reverse).flatMap
      (sessionEntries entries) := hf
  obtain ⟨name, hname, hfn⟩ := List.mem_flatMap.mp hf'
  have hmatch : isRevertFileName name = true := by
    have h1 : name ∈ (entries.map Prod.fst).filter isRevertFileName :=
      ((sortStrings_perm _).mem_iff).mp (List.mem_reverse.mp hname)
    exact (List.mem_filter.mp h1).2
  unfold sessionEntries at hfn
  rcases hl : List.lookup name entries with _ | doc
  · rw [hl] at hfn
    simp at hfn
  · rw [hl] at hfn
    cases doc with
    | malformed => simp at hfn
    | doc changes =>
      obtain ⟨change, hchange, hsome⟩ := List.mem_filterMap.mp hfn
      refine ⟨name, changes, ?_, hmatch, hl, change, hchange, ?_, ?_⟩
      · by_cases ht : truthyStr change.filePath = true
        · rw [if_pos ht] at hsome
          have := Option.some.inj hsome
          rw [← this]
        · rw [if_neg ht] at hsome
          simp at hsome
      · by_cases ht : truthyStr change.filePath = true
        · exact ht
        · rw [if_neg ht] at hsome
          simp at hsome
      · by_cases ht : truthyStr change.filePath = true
        · rw [if_pos ht] at hsome
          exact (Option.some.inj hsome).symm
        · rw [if_neg ht] at hsome
          simp at hsome

/-- C6 (amended): `readRevertFiles` returns the per-session entries
grouped by session, ordered by lexicographically descending session file
name (which matches descending sequence number only for equal-width,
e.g. zero-padded, numbers), each entry tagged with the identifier of
the session document it came from.  (As literally stated — ordering by
the embedded sequence number — the claim is false; see the
counterexample.) -/
theorem C6_revert_order_amended (entries : List (String × SessionDoc)) :
    List.Sorted (fun a b => strLe b a)
      ((readRevertFiles (.files entries)).map (fun f => f.revertSession.getD "")) ∧
    (∀ f ∈ readRevertFiles (.files entries),
      ∃ name changes, f.revertSession = some name ∧ isRevertFileName name = true ∧
        List.lookup name entries = some (.doc changes) ∧
        ∃ change ∈ changes.getD [], truthyStr change.filePath = true ∧
          f = ⟨change.filePath.getD "", change.content.getD "", some name⟩) := by
  constructor
  · have hshape : readRevertFiles (.files entries) =
        ((sortStrings ((entries.map Prod.fst).filter isRevertFileName)).reverse).flatMap
          (sessionEntries entries) := rfl
    rw [hshape]
    apply sorted_flatMap_blocks
    · intro n a ha
      rw [sessionEntries_tag a ha]
      rfl
    · exact List.pairwise_reverse.mpr (sortStrings_sorted _)
  · exact revert_provenance

/-- Counterexample to C6 as stated: with session documents
`revert-9.json` and `revert-10.json`, the entries of the session with
the larger embedded sequence number (10) come last, because
`.sort().reverse()` orders file names lexicographically descending, not
by sequence number. -/
theorem C6_counterexample :
    (readRevertFiles (.files
      [("revert-9.json", .doc (some [⟨some "a", some "1"⟩])),
       ("revert-10.json", .doc (some [⟨some "b", some "2"⟩]))])).map
        (fun f => f.revertSession) =
      [some "revert-9.json", some "revert-10.json"] ∧
    parseSessionNum "revert-9.json" < parseSessionNum "revert-10.json" := by
  decide

/-- Witness for the amended C6 at a concrete two-session directory with
zero-padded names. -/
theorem C6_witness :
    List.Sorted (fun a b => strLe b a)
      ((readRevertFiles (.files
        [("revert-001.json", .doc (some [⟨some "x", some "1"⟩])),
         ("revert-002.json", .doc (some [⟨some "x", some "2"⟩]))])).map
          (fun f => f.revertSession.getD "")) ∧
    (∃ name changes,
      (⟨"x", "2", some "revert-002.json"⟩ : AicodecFile).revertSession = some name ∧
      isRevertFileName name = true ∧
      List.lookup name
        [("revert-001.json", SessionDoc.doc (some [⟨some "x", some "1"⟩])),
         ("revert-002.json", SessionDoc.doc (some [⟨some "x", some "2"⟩]))] =
          some (.doc changes) ∧
      ∃ change ∈ changes.getD [], truthyStr change.filePath = true ∧
        (⟨"x", "2", some "revert-002.json"⟩ : AicodecFile) =
          ⟨change.filePath.getD "", change.content.getD "", some name⟩) := by
  obtain ⟨h1, h2⟩ := C6_revert_order_amended
    [("revert-001.json", .doc (some [⟨some "x", some "1"⟩])),
     ("revert-002.json", .doc (some [⟨some "x", some "2"⟩]))]
  exact ⟨h1, h2 ⟨"x", "2", some "revert-002.json"⟩ (by decide)⟩

/-- C8: a malformed per-session document is skipped (it contributes no
entries) and does not abort processing: every entry of every remaining
well-formed session document is still returned, and every returned
entry comes from a well-formed document. -/
theorem C8_malformed_session_skipped (entries : List (String × SessionDoc))
    (hnd : (entries.map Prod.fst).Nodup) :
    (∀ name changes, (name, SessionDoc.doc changes) ∈ entries →
      isRevertFileName name = true →
      ∀ change ∈ changes.getD [], truthyStr change.filePath = true →
        (⟨change.filePath.getD "", change.content.getD "", some name⟩ : AicodecFile) ∈
          readRevertFiles (.files entries)) ∧
    (∀ f ∈ readRevertFiles (.files entries),
      ∃ name changes, f.revertSession = some name ∧
        List.lookup name entries = some (.doc changes)) := by
  constructor
  · intro name changes hmem hmatch change hchange htruthy
    have hkey : name ∈ entries.map Prod.fst := List.mem_map.mpr ⟨_, hmem, rfl⟩
    have hfilter : name ∈ (entries.map Prod.fst).filter isRevertFileName :=
      List.mem_filter.mpr ⟨hkey, hmatch⟩
    have hsorted : name ∈
        (sortStrings ((entries.map Prod.fst).filter isRevertFileName)).reverse :=
      List.mem_reverse.mpr (((sortStrings_perm _).mem_iff).mpr hfilter)
    have hlook : List.lookup name entries = some (.doc changes) :=
      mem_lookup_of_nodup hnd hmem
    apply List.mem_flatMap.mpr
    refine ⟨name, hsorted, ?_⟩
    unfold sessionEntries
    rw [hlook]
    apply List.mem_filterMap.mpr
    exact ⟨change, hchange, by rw [if_pos htruthy]⟩
  · intro f hf
    obtain ⟨name, changes, hsess, _, hlook, _⟩ := revert_provenance f hf
    exact ⟨name, changes, hsess, hlook⟩

/-- Witness for C8: with `revert-001.json` malformed, the entry of the
well-formed `revert-002.json` is still returned. -/
theorem C8_witness :
    (⟨"y", "c", some "revert-002.json"⟩ : AicodecFile) ∈
      readRevertFiles (.files
        [("revert-001.json", .malformed),
         ("revert-002.json", .doc (some [⟨some "y", some "c"⟩]))]) :=
  (C8_malformed_session_skipped
    [("revert-001.json", .malformed),
     ("revert-002.json", .doc (some [⟨some "y", some "c"⟩]))] (by decide)).1
    "revert-002.json" (some [⟨some "y", some "c"⟩]) (by decide) (by decide)
    ⟨some "y", some "c"⟩ (by decide) (by decide)

/-! ## The revert (session-aware) tree

`AicodecTreeDataProvider.getChildren` for `revert.json` (README lines
713–742 and 744–879).  Tree-item `fullPath`s are carried relative to the
workspace root, so `path.relative(workspaceRoot, element.fullPath)` is
the stored path itself and `path.join(workspaceRoot, parent, name)` is
`joinRel parent name`. -/

/-- `vscode.TreeItemCollapsibleState`. -/
inductive CollapsibleState
  | none
  | collapsed
  | expanded
deriving DecidableEq, Repr

/-- An `AicodecTreeItem` of the revert tree, including the dynamically
attached `_multiSessionPath` and `_sessions` fields. -/
structure RevItem where
  label : String
  collapsibleState : CollapsibleState
  fullPath : Option String
  isFile : Bool
  jsonSourceFile : Option String
  multiSessionPath : Option String
  sessions : Option (List String)
deriving DecidableEq, Repr

/-- JS `Set.prototype.add`: insertion-ordered, deduplicating. -/
def addToSet (l : List String) (s : String) : List String :=
  if s ∈ l then l else l ++ [s]

/-- In-place update of an insertion-ordered map (`Map.set` on a present
key keeps its position). -/
def setAssoc {β : Type} : List (String × β) → String → β → List (String × β)
  | [], k, v => [(k, v)]
  | (k', v') :: rest, k, v =>
    if k' = k then (k, v) :: rest else (k', v') :: setAssoc rest k v

/-- One iteration of the loop building `fileToSessions` (lines 756–767):
register the normalized path, and add the truthy `revertSession` tag to
its session set. -/
def fileToSessionsStep (m : List (String × List String)) (file : AicodecFile) :
    List (String × List String) :=
  let normalizedPath := normSep file.filePath
  let m1 := if (List.lookup normalizedPath m).isNone then m ++ [(normalizedPath, [])] else m
  match file.revertSession with
  | some s =>
    if s ≠ "" then
      setAssoc m1 normalizedPath (addToSet ((List.lookup normalizedPath m1).getD []) s)
    else m1
  | none => m1

/-- The map from normalized file path to its session tags. -/
def fileToSessions (fileData : List AicodecFile) : List (String × List String) :=
  fileData.foldl fileToSessionsStep []

/-- The expansion context (lines 776–795): `parentRelativePath`,
`isInsideSessionFolder` and `currentSessionName`. -/
def revertContext (element : Option RevItem) : String × Bool × Option String :=
  match element with
  | none => ("", false, none)
  | some e =>
    if jsStartsWith "Session " e.label && (match e.jsonSourceFile with
        | some j => jsStartsWith "revert-" j
        | none => false) then
      (e.fullPath.getD "", true, e.jsonSourceFile)
    else
      match e.fullPath with
      | some fp => (fp, false, none)
      | none => ("", false, none)

/-- The per-name record of the revert `children` map (lines 798–803). -/
structure RevChild where
  fullPath : String
  isFile : Bool
  sessions : List String
  originalPath : String
deriving DecidableEq, Repr

/-- One iteration of the loop over `fileToSessions` (lines 805–845). -/
def revChildStep (parentRel : String) (inside : Bool) (currentSession : Option String)
    (m : List (String × RevChild)) (entry : String × List String) :
    List (String × RevChild) :=
  let sessions := entry.2
  if inside && currentSession.isSome && !(sessions.contains (currentSession.getD "")) then m
  else
    let normalizedPath := normSep entry.1
    let normalizedParent := normSep parentRel
    if normalizedParent ≠ "" && !(jsStartsWith (normalizedParent ++ "/") normalizedPath) then m
    else
      let pathAfterParent :=
        if normalizedParent ≠ "" then jsSubstringFrom normalizedPath (normalizedParent.length + 1)
        else normalizedPath
      let segments := splitSep pathAfterParent
      let childName := segments.headD ""
      if childName ≠ "" then
        match List.lookup childName m with
        | none =>
          m ++ [(childName,
            ⟨joinRel parentRel childName, segments.length == 1, sessions, entry.1⟩)]
        | some existing =>
          setAssoc m childName
            ⟨existing.fullPath, existing.isFile,
              sessions.foldl addToSet existing.sessions, existing.originalPath⟩
      else m

/-- `getChildren` for the revert source: the multi-session expansion
branch is checked first (lines 713–742, with
`sessions.sort((a,b) => b.localeCompare(a))` modelled as descending
code-unit order); then the empty check (746–748); then the unified tree
with multi-session placeholders (750–879). -/
def getRevertChildren (fileData : List AicodecFile) (element : Option RevItem) :
    List RevItem :=
  if (match element with
      | some e => e.jsonSourceFile == some "revert-multi-session"
      | none => false) then
    match element with
    | some e =>
      let sessions := e.sessions.getD []
      ((sortStrings sessions).reverse).map (fun sessionName =>
        ⟨"Session " ++ toString (parseSessionNum sessionName), .none, e.fullPath, true,
          some sessionName, none, none⟩)
    | none => []
  else if fileData.length = 0 then
    [⟨"No reverts found", .none, none, false, none, none, none⟩]
  else
    let f2s := fileToSessions fileData
    let ctx := revertContext element
    let parentRel := ctx.1
    let inside := ctx.2.1
    let currentSession := ctx.2.2
    let children := f2s.foldl (revChildStep parentRel inside currentSession) []
    let sortedKeys := sortStrings (children.map Prod.fst)
    sortedKeys.map (fun key =>
      let child := (List.lookup key children).getD ⟨"", false, [], ""⟩
      if child.isFile && decide (child.sessions.length > 1) && !inside then
        ⟨key, .collapsed, some child.fullPath, false, some "revert-multi-session",
          some child.originalPath, some child.sessions⟩
      else
        ⟨key, if child.isFile then .none else .collapsed, some child.fullPath, child.isFile,
          if inside then currentSession else child.sessions.head?, none, none⟩)

theorem getRevertChildren_root_eq (fileData : List AicodecFile) :
    getRevertChildren fileData none =
      if fileData.length = 0 then
        [⟨"No reverts found", .none, none, false, none, none, none⟩]
      else
        (sortStrings (((fileToSessions fileData).foldl
          (revChildStep "" false none) []).map Prod.fst)).map (fun key =>
          let child := (List.lookup key ((fileToSessions fileData).foldl
            (revChildStep "" false none) [])).getD ⟨"", false, [], ""⟩
          if child.isFile && decide (child.sessions.length > 1) && !false then
            ⟨key, .collapsed, some child.fullPath, false, some "revert-multi-session",
              some child.originalPath, some child.sessions⟩
          else
            ⟨key, if child.isFile then .none else .collapsed, some child.fullPath, child.isFile,
              if false then none else child.sessions.head?, none, none⟩) := rfl

/-- C3: with two entries for the same path `x` tagged with two distinct
truthy session tags, the root shows exactly one node for `x`, a
multi-session placeholder (non-file, collapsed, marked
`revert-multi-session`), and expanding it yields exactly two child
nodes, one per session tag, each a leaf still carrying the path `x`. -/
theorem C3_multi_session (s1 s2 c1 c2 : String)
    (h1 : s1 ≠ "") (h2 : s2 ≠ "") (hne : s1 ≠ s2) :
    ∃ item : RevItem,
      getRevertChildren [⟨"x", c1, some s1⟩, ⟨"x", c2, some s2⟩] none = [item] ∧
      item.label = "x" ∧ item.isFile = false ∧
      item.collapsibleState = .collapsed ∧
      item.jsonSourceFile = some "revert-multi-session" ∧
      item.multiSessionPath = some "x" ∧ item.fullPath = some "x" ∧
      item.sessions = some [s1, s2] ∧
      (getRevertChildren [⟨"x", c1, some s1⟩, ⟨"x", c2, some s2⟩] (some item)).length = 2 ∧
      (∀ it ∈ getRevertChildren [⟨"x", c1, some s1⟩, ⟨"x", c2, some s2⟩] (some item),
        it.fullPath = some "x" ∧ it.isFile = true ∧ it.collapsibleState = .none) ∧
      ((getRevertChildren [⟨"x", c1, some s1⟩, ⟨"x", c2, some s2⟩] (some item)).map
        RevItem.jsonSourceFile).Perm [some s1, some s2] := by
  have hf2s : fileToSessions [⟨"x", c1, some s1⟩, ⟨"x", c2, some s2⟩] = [("x", [s1, s2])] := by
    show fileToSessionsStep (fileToSessionsStep [] ⟨"x", c1, some s1⟩) ⟨"x", c2, some s2⟩ =
      [("x", [s1, s2])]
    have hstep1 : fileToSessionsStep [] ⟨"x", c1, some s1⟩ = [("x", [s1])] := by
      show (if s1 ≠ "" then setAssoc [("x", [])] "x" (addToSet [] s1) else [("x", [])]) =
        [("x", [s1])]
      rw [if_pos h1]
      rfl
    rw [hstep1]
    show (if s2 ≠ "" then setAssoc [("x", [s1])] "x" (addToSet [s1] s2) else [("x", [s1])]) =
      [("x", [s1, s2])]
    rw [if_pos h2]
    unfold addToSet
    rw [if_neg (by
      intro hmem
      exact hne (List.mem_singleton.mp hmem).symm)]
    rfl
  refine ⟨⟨"x", .collapsed, some "x", false, some "revert-multi-session", some "x",
    some [s1, s2]⟩, ?_, rfl, rfl, rfl, rfl, rfl, rfl, rfl, ?_, ?_, ?_⟩
  · rw [getRevertChildren_root_eq, if_neg (by simp), hf2s]
    rfl
  · have hexp : getRevertChildren [⟨"x", c1, some s1⟩, ⟨"x", c2, some s2⟩]
        (some ⟨"x", .collapsed, some "x", false, some "revert-multi-session", some "x",
          some [s1, s2]⟩) =
        ((sortStrings [s1, s2]).reverse).map (fun sessionName =>
          ⟨"Session " ++ toString (parseSessionNum sessionName), .none, some "x", true,
            some sessionName, none, none⟩) := rfl
    rw [hexp, List.length_map, List.length_reverse]
    exact ((sortStrings_perm [s1, s2]).length_eq)
  · have hexp : getRevertChildren [⟨"x", c1, some s1⟩, ⟨"x", c2, some s2⟩]
        (some ⟨"x", .collapsed, some "x", false, some "revert-multi-session", some "x",
          some [s1, s2]⟩) =
        ((sortStrings [s1, s2]).reverse).map (fun sessionName =>
          ⟨"Session " ++ toString (parseSessionNum sessionName), .none, some "x", true,
            some sessionName, none, none⟩) := rfl
    rw [hexp]
    intro it hit
    obtain ⟨sess, _, hmk⟩ := List.mem_map.mp hit
    rw [← hmk]
    exact ⟨rfl, rfl, rfl⟩
  · have hexp : getRevertChildren [⟨"x", c1, some s1⟩, ⟨"x", c2, some s2⟩]
        (some ⟨"x", .collapsed, some "x", false, some "revert-multi-session", some "x",
          some [s1, s2]⟩) =
        ((sortStrings [s1, s2]).reverse).map (fun sessionName =>
          ⟨"Session " ++ toString (parseSessionNum sessionName), .none, some "x", true,
            some sessionName, none, none⟩) := rfl
    rw [hexp]
    have hmapmap : (((sortStrings [s1, s2]).reverse).map (fun sessionName =>
        (⟨"Session " ++ toString (parseSessionNum sessionName), .none, some "x", true,
          some sessionName, none, none⟩ : RevItem))).map RevItem.jsonSourceFile =
        ((sortStrings [s1, s2]).reverse).map (fun sessionName => some sessionName) := by
      rw [List.map_map]
      rfl
    rw [hmapmap]
    have hperm : ((sortStrings [s1, s2]).reverse).Perm [s1, s2] :=
      (List.reverse_perm _).trans (sortStrings_perm [s1, s2])
    have := hperm.map (fun sessionName => some sessionName)
    simpa using this

/-- Witness for C3 at the concrete session tags `revert-001.json` and
`revert-002.json`. -/
theorem C3_witness :
    ∃ item : RevItem,
      getRevertChildren [⟨"x", "1", some "revert-001.json"⟩,
        ⟨"x", "2", some "revert-002.json"⟩] none = [item] ∧
      item.label = "x" ∧ item.isFile = false ∧
      item.collapsibleState = .collapsed ∧
      item.jsonSourceFile = some "revert-multi-session" ∧
      item.multiSessionPath = some "x" ∧ item.fullPath = some "x" ∧
      item.sessions = some ["revert-001.json", "revert-002.json"] ∧
      (getRevertChildren [⟨"x", "1", some "revert-001.json"⟩,
        ⟨"x", "2", some "revert-002.json"⟩] (some item)).length = 2 ∧
      (∀ it ∈ getRevertChildren [⟨"x", "1", some "revert-001.json"⟩,
          ⟨"x", "2", some "revert-002.json"⟩] (some item),
        it.fullPath = some "x" ∧ it.isFile = true ∧ it.collapsibleState = .none) ∧
      ((getRevertChildren [⟨"x", "1", some "revert-001.json"⟩,
        ⟨"x", "2", some "revert-002.json"⟩] (some item)).map
          RevItem.jsonSourceFile).Perm [some "revert-001.json", some "revert-002.json"] :=
  C3_multi_session "revert-001.json" "revert-002.json" "1" "2"
    (by decide) (by decide) (by decide)

/-! ## The extended provider: applied-status decoration for changes.json -/

/-- The outcome of reading one workspace file. -/
inductive DiskFile
  | missing
  | content (text : String)
  | unreadable
deriving DecidableEq, Repr

/-- The workspace contents, by path relative to the workspace root. -/
def Disk : Type := String → DiskFile

/-- `s.replace(/\r\n/g, '\n')`. -/
def replCRLF : List Char → List Char
  | [] => []
  | '\r' :: '\n' :: rest => '\n' :: replCRLF rest
  | c :: rest => c :: replCRLF rest

/-- Line-ending normalization used by `isChangeApplied`. -/
def normalizeEol (s : String) : String := ⟨replCRLF s.data⟩

/-- `isChangeApplied` (README lines 637–683), over the loader snapshot
and the current workspace contents.  The lookup at line 653 compares
paths exactly (`===`), not separator-normalized. -/
def isChangeApplied (disk : Disk) (fileData : Option (List AicodecFile))
    (filePath : String) : Bool :=
  match fileData with
  | none => false
  | some fd =>
    match fd.find? (fun f => f.filePath == filePath) with
    | none => false
    | some changeData =>
      match disk filePath with
      | .missing => changeData.content == ""
      | .unreadable => false
      | .content actualContent =>
        normalizeEol changeData.content == normalizeEol actualContent

/-- An `AicodecTreeItem` of the non-revert trees, with the applied flag. -/
structure ExtItem where
  label : String
  collapsibleState : CollapsibleState
  fullPath : Option String
  isFile : Bool
  jsonSourceFile : Option String
  isApplied : Option Bool
deriving DecidableEq, Repr

/-- The tail of the extended `getChildren` (README lines 916–935):
decorate the resolver's children; for `changes.json` files the
`isApplied` flag is computed from the workspace contents
(`path.relative(workspaceRoot, child.fullPath)` is the stored relative
path itself). -/
def getChildrenExt (disk : Disk) (jsonFileName : String)
    (fileData : Option (List AicodecFile)) (paths : List String)
    (parentRelativePath : String) : List ExtItem :=
  (getChildrenCore paths parentRelativePath).map (fun c =>
    let collapsibleState := if c.isFile then CollapsibleState.none else CollapsibleState.collapsed
    let isApplied : Option Bool :=
      if jsonFileName == "changes.json" && c.isFile then
        some (isChangeApplied disk fileData c.fullPath)
      else none
    ⟨c.name, collapsibleState, some c.fullPath, c.isFile, some jsonFileName, isApplied⟩)

/-- Counterexample to C9 as stated: for the `changes.json` source the
result is not a function of the prefix and the cached snapshot alone —
two calls with the same cached entry set but different on-disk contents
of the file `a` return different item lists (the applied flag flips). -/
theorem C9_counterexample :
    getChildrenExt (fun _ => .content "1") "changes.json"
      (some [⟨"a", "1", none⟩]) ["a"] "" ≠
    getChildrenExt (fun _ => .content "2") "changes.json"
      (some [⟨"a", "1", none⟩]) ["a"] "" := by
  decide

/-- C9 (amended): `getChildren` is a pure function of the prefix, the
cached snapshot, and — for the `changes.json` source only — the current
workspace file contents consulted by the applied-status check: for any
other source the result is independent of the workspace, and two calls
agree whenever the workspace contents are unchanged. -/
theorem C9_purity_amended (jsonFileName : String) (fileData : Option (List AicodecFile))
    (paths : List String) (parent : String) (d1 d2 : Disk) :
    (jsonFileName ≠ "changes.json" →
      getChildrenExt d1 jsonFileName fileData paths parent =
      getChildrenExt d2 jsonFileName fileData paths parent) ∧
    ((∀ p, d1 p = d2 p) →
      getChildrenExt d1 jsonFileName fileData paths parent =
      getChildrenExt d2 jsonFileName fileData paths parent) := by
  constructor
  · intro hname
    unfold getChildrenExt
    apply List.map_congr_left
    intro c _
    have hbeq : (jsonFileName == "changes.json") = false := by
      simp [hname]
    rw [hbeq]
    rfl
  · intro hdisk
    unfold getChildrenExt
    apply List.map_congr_left
    intro c _
    have happ : isChangeApplied d1 fileData c.fullPath =
        isChangeApplied d2 fileData c.fullPath := by
      unfold isChangeApplied
      rw [hdisk c.fullPath]
    rw [happ]

/-- Witness for the amended C9: a non-changes source is insensitive to
the workspace contents. -/
theorem C9_witness :
    getChildrenExt (fun _ => .content "1") "context.json" none ["a"] "" =
    getChildrenExt (fun _ => .content "2") "context.json" none ["a"] "" :=
  (C9_purity_amended "context.json" none ["a"] ""
    (fun _ => .content "1") (fun _ => .content "2")).1 (by decide)

/-! ## The simple provider: root placeholder -/

/-- An `AicodecTreeItem` of the simple provider. -/
structure SimpleItem where
  label : String
  collapsibleState : CollapsibleState
  fullPath : Option String
  isFile : Bool
  jsonSourceFile : Option String
deriving DecidableEq, Repr

/-- The data-source-specific empty message (README lines 987–998). -/
def noItemsMessage (jsonFileName : String) : String :=
  if jsonFileName = "context.json" then "No aggregates found"
  else if jsonFileName = "changes.json" then "No changes found"
  else if jsonFileName = "revert.json" then "No reverts found"
  else "No items found"

/-- The simple provider's `getChildren` (README lines 979–1044): guard
on configuration and workspace, load the cache once, return the
message placeholder when the root is expanded over an empty list, else
resolve and decorate the children of the expanded node. -/
def getChildrenSimple (configured hasWorkspace : Bool) (resource : Resource)
    (s : ProviderState) (element : Option SimpleItem) : ProviderState × List SimpleItem :=
  if !configured || !hasWorkspace then (s, [])
  else
    let s1 := ensureFilePathsLoaded configured resource s
    let paths := s1.relativeFilePaths.getD []
    if element.isNone && paths.length == 0 then
      (s1, [⟨noItemsMessage s.jsonFileName, .none, none, false, none⟩])
    else
      let parentRelativePath := match element with
        | some e => e.fullPath.getD ""
        | none => ""
      (s1, (getChildrenCore paths parentRelativePath).map (fun c =>
        ⟨c.name, if c.isFile then .none else .collapsed, some c.fullPath, c.isFile,
          some s.jsonFileName⟩))

/-- `AicodecTreeItem`'s derived `contextValue` (constructor,
`src/src/tree/AicodecTreeItem.ts` lines 20–62): `file` or `folder`,
overridden to `placeholder` when the item has no `fullPath`. -/
def contextValue (fullPath : Option String) (isFile : Bool) : String :=
  if fullPath.isNone then "placeholder" else if isFile then "file" else "folder"

/-- C10: with an empty cached entry set, expanding the root returns
exactly one non-expandable item carrying the data-source-specific
message and no `fullPath` (hence classified `placeholder`); the three
known sources get their specific messages; and expanding an element
node never produces a placeholder — every returned item has a
`fullPath`. -/
theorem C10_empty_placeholder (name : String) (r : Resource) :
    (getChildrenSimple true true r ⟨name, some []⟩ none =
      (⟨name, some []⟩, [⟨noItemsMessage name, .none, none, false, none⟩]) ∧
     contextValue none false = "placeholder") ∧
    (noItemsMessage "context.json" = "No aggregates found" ∧
     noItemsMessage "changes.json" = "No changes found" ∧
     noItemsMessage "revert.json" = "No reverts found") ∧
    (∀ (s : ProviderState) (e : SimpleItem),
      ∀ it ∈ (getChildrenSimple true true r s (some e)).2,
        it.fullPath.isSome = true ∧ contextValue it.fullPath it.isFile ≠ "placeholder") := by
  refine ⟨⟨rfl, rfl⟩, ⟨rfl, rfl, rfl⟩, ?_⟩
  intro s e it hit
  have hshape : (getChildrenSimple true true r s (some e)).2 =
      (getChildrenCore ((ensureFilePathsLoaded true r s).relativeFilePaths.getD [])
        (e.fullPath.getD "")).map (fun c =>
        ⟨c.name, if c.isFile then .none else .collapsed, some c.fullPath, c.isFile,
          some s.jsonFileName⟩) := rfl
  rw [hshape] at hit
  obtain ⟨c, _, hc⟩ := List.mem_map.mp hit
  rw [← hc]
  refine ⟨rfl, ?_⟩
  show contextValue (some c.fullPath) c.isFile ≠ "placeholder"
  unfold contextValue
  rw [if_neg (by simp)]
  cases c.isFile
  · rw [if_neg (by simp)]
    decide
  · rw [if_pos rfl]
    decide

/-- Witness for C10: a decorated child of an expanded directory node is
never a placeholder. -/
theorem C10_witness :
    (⟨"f", .none, some "d/f", true, some "changes.json"⟩ : SimpleItem).fullPath.isSome = true ∧
    contextValue (⟨"f", .none, some "d/f", true, some "changes.json"⟩ : SimpleItem).fullPath
      (⟨"f", .none, some "d/f", true, some "changes.json"⟩ : SimpleItem).isFile ≠
        "placeholder" :=
  (C10_empty_placeholder "changes.json" .missing).2.2 ⟨"changes.json", some ["d/f"]⟩
    ⟨"d", .collapsed, some "d", false, none⟩
    ⟨"f", .none, some "d/f", true, some "changes.json"⟩ (by decide)

end Aicodec
